import Mathlib

/-!
Shallow embedding of the board/package management core of the
`vscode-arduino` extension, and proofs about it.

Sources embedded here:
* `BoardManager` (package-index parsing, installed-platform resolution,
  board-descriptor parsing),
* `ExampleManager` (example tree building, library compatibility),
* `ArduinoContentProvider.installPackage` (HTTP error handling).

Conventions used throughout:
* Filesystem paths are modelled as segment lists (`List String`);
  `path.join` is list append, `path.dirname` is `List.dropLast`,
  `path.basename` is the last segment, and `path.resolve` is the identity
  (the inputs the code feeds to it are already absolute and normalised).
* Filesystem contents (directory listings, file contents) are explicit
  inputs of the embedded functions.
* JavaScript `Map` objects are modelled as insertion-ordered association
  lists with `mapGet` / `mapSet`.
* Optional / possibly-absent JavaScript values are `Option`; JavaScript
  truthiness of an optional string (`undefined`, `null` and `""` are all
  falsy) is the `jsTruthy` predicate below.
-/

set_option autoImplicit false

namespace VsArduino

/-! ## Generic association-list maps and first-match update -/

/-- Replace the first element of `l` satisfying `p` by its image under `f`
(the shallow counterpart of mutating, through a reference obtained from
`Array.prototype.find` / `Map.prototype.get`, the object stored in a list
or map). -/
def updateFirst {α : Type} (p : α → Bool) (f : α → α) : List α → List α
  | [] => []
  | x :: rest => if p x then f x :: rest else x :: updateFirst p f rest

/-- `Map.prototype.get`: value of the first entry with the given key. -/
def mapGet {κ α : Type} [BEq κ] (m : List (κ × α)) (k : κ) : Option α :=
  (m.find? (fun e => e.1 == k)).map (fun e => e.2)

/-- `Map.prototype.set`: update the entry with the given key in place, or
append a new entry. -/
def mapSet {κ α : Type} [BEq κ] : List (κ × α) → κ → α → List (κ × α)
  | [], k, v => [(k, v)]
  | (k', v') :: rest, k, v =>
    if k' == k then (k', v) :: rest else (k', v') :: mapSet rest k v

/-- JavaScript truthiness of an optional string field: `undefined` and the
empty string are falsy. -/
def jsTruthy (o : Option String) : Bool :=
  match o with
  | none => false
  | some s => !(s == "")

/-! ## C7: `ArduinoContentProvider.installPackage` -/

/-- The request body fields consulted by `installPackage`. -/
structure InstallBody where
  packageName : Option String
  arch : Option String
  version : Option String
deriving DecidableEq

/-- The error object thrown by `installBoard`, as read by the handler. -/
structure InstallError where
  code : String
  stderr : String
deriving DecidableEq

/-- The three ways the handler answers. -/
inductive HttpResponse where
  | badRequest (msg : String)
  | jsonOK
  | serverError (msg : String)
deriving DecidableEq

/-- `ArduinoContentProvider.installPackage`.  The outcome of the
`installBoard` call is an explicit input; the second component of the
result records whether `installBoard` was invoked at all. -/
def installPackage (body : InstallBody) (installResult : Except InstallError Unit) :
    HttpResponse × Bool :=
  if !jsTruthy body.packageName || !jsTruthy body.arch then
    (.badRequest "BAD Request! Missing \x7b packageName, arch \x7d parameters!", false)
  else
    match installResult with
    | .ok _ => (.jsonOK, true)
    | .error error =>
      (.serverError
        ("Install board failed with message \"code:" ++ error.code ++
          ", err:" ++ error.stderr ++ "\""), true)

/-! ## C8: `BoardManager.getDefaultPlatforms` -/

/-- A platform entry of the bundled package index, restricted to the fields
the function reads (`architecture`, `version`). -/
structure BundledPlatformEntry where
  architecture : String
  version : String
deriving DecidableEq

/-- A package of the bundled index (`name`, `platforms`). -/
structure BundledPackage where
  name : String
  platforms : List BundledPlatformEntry
deriving DecidableEq

/-- The parsed bundled index; `packages` is optional because the code
guards with `bundledObject && bundledObject.packages`. -/
structure BundledIndex where
  packages : Option (List BundledPackage)
deriving DecidableEq

/-- The observable states of `package_index_bundled.json`: reading throws
(missing file), the content is falsy (empty), `JSON.parse` throws, or a
parse succeeds. -/
inductive BundledFileState where
  | missing
  | emptyFile
  | invalidJson
  | parsed (idx : BundledIndex)
deriving DecidableEq

/-- The record shape pushed by `getDefaultPlatforms` and
`getManuallyInstalledPlatforms`, and merged by `getInstalledPlatforms`. -/
structure InstalledPlatformInfo where
  packageName : String
  architecture : String
  version : String
  rootBoardPath : List String
  defaultPlatform : Bool
deriving DecidableEq

/-- The entry `getDefaultPlatforms` pushes for a bundled platform. -/
def defaultPlatformEntry (defaultPackagePath : List String) (pkgName : String)
    (p : BundledPlatformEntry) : InstalledPlatformInfo :=
  { packageName := pkgName
    architecture := p.architecture
    version := p.version
    rootBoardPath := defaultPackagePath ++ [pkgName, p.architecture]
    defaultPlatform := true }

/-- The loop body over one package's platforms: push only when
`platform.version` is truthy. -/
def addBundledPlatform (defaultPackagePath : List String) (pkgName : String)
    (acc : List InstalledPlatformInfo) (p : BundledPlatformEntry) :
    List InstalledPlatformInfo :=
  if p.version == "" then acc else acc ++ [defaultPlatformEntry defaultPackagePath pkgName p]

/-- `BoardManager.getDefaultPlatforms`: read the bundled index; any
exception is swallowed by the surrounding `try`/`catch` and yields the
accumulator built so far (the empty list). -/
def getDefaultPlatforms (defaultPackagePath : List String) (file : BundledFileState) :
    List InstalledPlatformInfo :=
  match file with
  | .missing => []
  | .emptyFile => []
  | .invalidJson => []
  | .parsed idx =>
    match idx.packages with
    | none => []
    | some pkgs =>
      pkgs.foldl
        (fun acc pkg => pkg.platforms.foldl (addBundledPlatform defaultPackagePath pkg.name) acc)
        []

/-! ## C1: `BoardManager.parsePackageIndex` -/

/-- A board entry of a package-index platform; only its `name` is consulted
by the merge. -/
structure IdxBoard where
  name : String
deriving DecidableEq

/-- A platform entry as read from a package-index file, restricted to the
fields `parsePackageIndex` reads or writes. -/
structure RawPlatform where
  name : String
  architecture : String
  version : String
  boards : List IdxBoard
deriving DecidableEq

/-- A package of a package-index file. -/
structure RawPackage where
  name : String
  platforms : List RawPlatform
deriving DecidableEq

/-- A parsed package-index file. -/
structure PackageIndex where
  packages : List RawPackage
deriving DecidableEq

/-- The platform objects accumulated in `this._platforms`: after
`plat.package = pkg` the parent package is reachable from the platform, and
after insertion `versions` holds all merged versions while `version` has
been cleared. Only the package's name is consulted, so it is stored
directly. -/
structure MergedPlatform where
  name : String
  architecture : String
  packageName : String
  version : String
  versions : List String
  boards : List IdxBoard
deriving DecidableEq

/-- Modelled from the spec: `util.union` (in `src/common/util.ts`, not part
of the provided sources) — the spec says board lists are "unioned" across
index files. The entries of `a` are kept and each entry of `b` is appended
unless an entry with the same board name is already present (the comparator
passed at the call site is `(a, b) => a.name === b.name`). -/
def boardUnion (a b : List IdxBoard) : List IdxBoard :=
  b.foldl (fun acc x => if acc.any (fun y => x.name == y.name) then acc else acc ++ [x]) a

/-- The predicate of the `find` call in `parsePackageIndex`:
`_plat.architecture === plat.architecture && _plat.package.name === plat.package.name`. -/
def platformKeyMatches (pkgName arch : String) (q : MergedPlatform) : Bool :=
  q.architecture == arch && q.packageName == pkgName

/-- The in-place update of an already-added platform: union the boards and
push the new version. -/
def mergePlatformEntry (p : RawPlatform) (q : MergedPlatform) : MergedPlatform :=
  { q with boards := boardUnion q.boards p.boards, versions := q.versions ++ [p.version] }

/-- The platform pushed on first encounter: `versions` is initialised to
`[plat.version]` and `version` is cleared. -/
def newMergedPlatform (pkgName : String) (p : RawPlatform) : MergedPlatform :=
  { name := p.name
    architecture := p.architecture
    packageName := pkgName
    version := ""
    versions := [p.version]
    boards := p.boards }

/-- Processing of one platform entry of one package by
`parsePackageIndex`'s inner loop. -/
def addPlatformEntry (st : List MergedPlatform) (pkgName : String) (p : RawPlatform) :
    List MergedPlatform :=
  if (st.find? (platformKeyMatches pkgName p.architecture)).isSome then
    updateFirst (platformKeyMatches pkgName p.architecture) (mergePlatformEntry p) st
  else
    st ++ [newMergedPlatform pkgName p]

/-- `BoardManager.parsePackageIndex`, acting on the accumulated
`this._platforms` list. -/
def parsePackageIndex (st : List MergedPlatform) (idx : PackageIndex) : List MergedPlatform :=
  idx.packages.foldl
    (fun acc pkg => pkg.platforms.foldl (fun acc2 p => addPlatformEntry acc2 pkg.name p) acc)
    st

/-- The `loadPackages` loop over all index files, starting from the empty
`this._platforms`. -/
def loadPackageIndexes (files : List PackageIndex) : List MergedPlatform :=
  files.foldl parsePackageIndex []

/-- All (package name, platform entry) pairs of a list of index files, in
traversal order. -/
def indexEntries (files : List PackageIndex) : List (String × RawPlatform) :=
  files.flatMap (fun f => f.packages.flatMap (fun pkg => pkg.platforms.map (fun p => (pkg.name, p))))

/-- Whether an index entry carries the given package name and architecture. -/
def entryKeyMatches (pn ar : String) (e : String × RawPlatform) : Bool :=
  e.2.architecture == ar && e.1 == pn

/-- The index entries with the given package name and architecture. -/
def entriesFor (pn ar : String) (es : List (String × RawPlatform)) :
    List (String × RawPlatform) :=
  es.filter (entryKeyMatches pn ar)

/-- The board names of a board list. -/
def boardNames (bs : List IdxBoard) : List String := bs.map IdxBoard.name

/-- The platform that merging the entries `e :: rest` (in order) produces:
the first entry seeds the record, later ones contribute their version and
their boards (unioned by name). -/
def buildMergedPlatform (e : String × RawPlatform) (rest : List (String × RawPlatform)) :
    MergedPlatform :=
  { name := e.2.name
    architecture := e.2.architecture
    packageName := e.1
    version := ""
    versions := e.2.version :: rest.map (fun r => r.2.version)
    boards := rest.foldl (fun acc r => boardUnion acc r.2.boards) e.2.boards }

/-- The merged platforms a given key's entry list gives rise to. -/
def mergedOfEntries : List (String × RawPlatform) → List MergedPlatform
  | [] => []
  | e :: rest => [buildMergedPlatform e rest]

/-- Index file with a platform of package `arduino`, architecture `avr`. -/
def pkgIndexA : PackageIndex :=
  ⟨[⟨"arduino", [⟨"Arduino AVR Boards", "avr", "1.6.2", [⟨"Uno"⟩]⟩]⟩]⟩

/-- Index file with a platform of package `esp8266`, same architecture
`avr`, used to exhibit that merging is keyed on the package name too. -/
def pkgIndexB : PackageIndex :=
  ⟨[⟨"esp8266", [⟨"ESP Boards", "avr", "2.0.0", [⟨"Generic"⟩]⟩]⟩]⟩

/-- Index files over which the amended C1 statement is witnessed. -/
def pkgIndexW : List PackageIndex :=
  [⟨[⟨"arduino", [⟨"Arduino AVR Boards", "avr", "1.6.2", [⟨"Uno"⟩, ⟨"Yun"⟩]⟩]⟩]⟩,
   ⟨[⟨"arduino", [⟨"Arduino AVR Boards", "avr", "1.6.3", [⟨"Uno"⟩, ⟨"Micro"⟩]⟩]⟩]⟩]

/-! ## C2: `BoardManager.getInstalledPlatforms` -/

/-- The predicate of the `find` call in `getInstalledPlatforms`:
`_plat.packageName === plat.packageName && _plat.architecture === plat.architecture`. -/
def pairMatches (pn ar : String) (q : InstalledPlatformInfo) : Bool :=
  q.packageName == pn && q.architecture == ar

/-- The in-place update of a found default platform from a manually
installed one: `defaultPlatform`, `version` and `rootBoardPath` are taken
from the manual platform. -/
def overrideWith (plat d : InstalledPlatformInfo) : InstalledPlatformInfo :=
  { d with
    defaultPlatform := plat.defaultPlatform
    version := plat.version
    rootBoardPath := plat.rootBoardPath }

/-- The body of the `manuallyInstalled.forEach` loop. -/
def installStep (acc : List InstalledPlatformInfo) (plat : InstalledPlatformInfo) :
    List InstalledPlatformInfo :=
  if (acc.find? (pairMatches plat.packageName plat.architecture)).isSome then
    updateFirst (pairMatches plat.packageName plat.architecture) (overrideWith plat) acc
  else acc ++ [plat]

/-- `BoardManager.getInstalledPlatforms`, acting on the results of
`getDefaultPlatforms` and `getManuallyInstalledPlatforms`. -/
def getInstalledPlatforms (defaults manuals : List InstalledPlatformInfo) :
    List InstalledPlatformInfo :=
  manuals.foldl installStep defaults

/-- The (packageName, architecture) keys of a list of installed platforms. -/
def platformKeys (l : List InstalledPlatformInfo) : List (String × String) :=
  l.map (fun q => (q.packageName, q.architecture))

/-- The entry a key resolves to, given the (at most one-element) lists of
defaults and manuals with that key: a manual platform overrides the fields
of the default one. -/
def resolvedPair (dsk msk : List InstalledPlatformInfo) : List InstalledPlatformInfo :=
  match msk with
  | [] => dsk
  | m :: _ =>
    match dsk with
    | [] => [m]
    | d :: _ => [overrideWith m d]

/-- Bundled platform list used to witness C2. -/
def installedDefaultsW : List InstalledPlatformInfo :=
  [⟨"arduino", "avr", "1.6.2", ["bundled"], true⟩]

/-- Manually installed platform list used to witness C2. -/
def installedManualsW : List InstalledPlatformInfo :=
  [⟨"arduino", "avr", "1.8.0", ["user"], false⟩]

/-! ## C5: `BoardManager.getManuallyInstalledPlatforms` -/

/-- The directory listing of one architecture folder under
`<package>/hardware`: its name and its entries (in `fs.readdirSync`
order). -/
structure ArchFolder where
  architecture : String
  entries : List String
deriving DecidableEq

/-- One entry of the user package directory: its name, whether it has a
`hardware` sub-directory, and the architecture folders inside it. -/
structure PackageFolder where
  packageName : String
  hasHardwareDir : Bool
  archFolders : List ArchFolder
deriving DecidableEq

/-- Modelled from the spec: `util.filterJunk` (in `src/common/util.ts`,
not part of the provided sources) drops OS junk files from a directory
listing — the call-site comment says "in Mac, filter .DS_Store file". The
exact junk-name set is irrelevant to the claims, which only mention
"non-junk entries". -/
def isJunk (name : String) : Bool :=
  name == ".DS_Store" || name == "Thumbs.db" || name == "desktop.ini" ||
    name == ".AppleDouble"

/-- `util.filterJunk`: keep the non-junk names. -/
def filterJunk (l : List String) : List String := l.filter (fun f => !isJunk f)

/-- The record `getManuallyInstalledPlatforms` pushes for one architecture
folder: version is the chosen entry, `rootBoardPath` is
`<archPath>/<architecture>/<version>`. -/
def mkManualPlatform (packagePath : List String) (pkgName arch version : String) :
    InstalledPlatformInfo :=
  { packageName := pkgName
    architecture := arch
    version := version
    rootBoardPath := packagePath ++ ["packages", pkgName, "hardware", arch, version]
    defaultPlatform := false }

/-- What one architecture folder contributes: nothing when no non-junk
entry exists, otherwise the platform for the first non-junk entry. -/
def manualContribution (packagePath : List String) (pkgName : String) (a : ArchFolder) :
    List InstalledPlatformInfo :=
  match filterJunk a.entries with
  | [] => []
  | v :: _ => [mkManualPlatform packagePath pkgName a.architecture v]

/-- `BoardManager.getManuallyInstalledPlatforms`.  `root` is `none` when
`<packagePath>/packages` is not a directory; otherwise it holds the
sub-folders returned by `util.readdirSync(rootPackagePath, true)` (the
`true` restricts the listing to folders). Junk filtering of the name
listings is expressed as filtering the folder records by name. -/
def getManuallyInstalledPlatforms (packagePath : List String)
    (root : Option (List PackageFolder)) : List InstalledPlatformInfo :=
  match root with
  | none => []
  | some dirs =>
    (dirs.filter (fun d => !isJunk d.packageName)).foldl
      (fun acc pkg =>
        if pkg.hasHardwareDir then
          (pkg.archFolders.filter (fun a => !isJunk a.architecture)).foldl
            (fun acc2 a => acc2 ++ manualContribution packagePath pkg.packageName a) acc
        else acc)
      []

/-- The full contribution of one user package folder. -/
def packageContribution (packagePath : List String) (pkg : PackageFolder) :
    List InstalledPlatformInfo :=
  if pkg.hasHardwareDir then
    (pkg.archFolders.filter (fun a => !isJunk a.architecture)).flatMap
      (manualContribution packagePath pkg.packageName)
  else []

/-- User package tree used to witness C5. -/
def manualTreeW : List PackageFolder :=
  [⟨"esp32", true, [⟨"esp32", [".DS_Store", "2.0.1", "2.0.0"]⟩]⟩]

/-! ## C3 / C4 / C9: `BoardManager.parseBoardDescriptorFile`

The board-descriptor parser works line by line with the JavaScript regular
expression `/([^\.]+)\.(\S+)=(.+)/` (`exec`, unanchored).  The regex is
embedded operationally: `execBoardLineRegex` scans for the leftmost start
position admitting a match and resolves the greedy groups with
backtracking exactly as the JavaScript engine does —
`([^\.]+)` is the maximal dot-free run (shorter runs cannot be followed by
the literal dot), `(\S+)` backtracks from its maximal non-whitespace run to
the last `=` that still leaves a non-empty `(.+)`, and `(.+)` is the
maximal run of characters matched by `.` (anything but a line
terminator). -/

/-- The JavaScript `\s` class (ECMA-262 WhiteSpace ∪ LineTerminator). -/
def jsWhitespace (c : Char) : Bool :=
  c == ' ' || c == '\t' || c == '\n' || c == '\x0B' || c == '\x0C' || c == '\r' ||
  c.toNat == 0xA0 || c.toNat == 0x1680 ||
  (decide (0x2000 ≤ c.toNat) && decide (c.toNat ≤ 0x200A)) ||
  c.toNat == 0x2028 || c.toNat == 0x2029 || c.toNat == 0x202F || c.toNat == 0x205F ||
  c.toNat == 0x3000 || c.toNat == 0xFEFF

/-- What the JavaScript `.` matches (anything but a line terminator). -/
def jsDotMatch (c : Char) : Bool :=
  !(c == '\n' || c == '\r' || c.toNat == 0x2028 || c.toNat == 0x2029)

/-- `String.prototype.startsWith`, computed on the character lists. -/
def jsStartsWith (s pre : String) : Bool := pre.toList.isPrefixOf s.toList

/-- `String.prototype.trim`. -/
def jsTrim (s : String) : String :=
  ⟨((s.toList.dropWhile jsWhitespace).reverse.dropWhile jsWhitespace).reverse⟩

/-- `String.prototype.split` on a character class: every matching character
separates, adjacent separators yield empty fields. -/
def splitChars (p : Char → Bool) : List Char → List (List Char)
  | [] => [[]]
  | c :: rest =>
    if p c then [] :: splitChars p rest
    else
      match splitChars p rest with
      | [] => [[c]]
      | cur :: others => (c :: cur) :: others

/-- `boardDescriptor.split(/[\r|\r\n|\n]/)`: the regex is a character class
containing `\r`, `|` and `\n`. -/
def splitDescriptorLines (s : String) : List String :=
  (splitChars (fun c => c == '\r' || c == '|' || c == '\n') s.toList).map (fun l => ⟨l⟩)

/-- Resolve `(\S+)=(.+)` against `s2` (the text after the first dot):
greedy `(\S+)` with backtracking picks the largest `k` such that
`s2[0..k)` is non-whitespace, `s2[k] = '='` and `s2[k+1]` is matched by
`.`; the groups are then `s2[0..k)` and the maximal `.`-run from `k+1`. -/
def findEqSplit (s2 : List Char) : Option (List Char × List Char) :=
  let L := (s2.takeWhile (fun c => !jsWhitespace c)).length
  let ks := (List.range s2.length).filter (fun k =>
    decide (1 ≤ k) && decide (k < L) && (s2.getD k ' ' == '=') &&
    decide (k + 1 < s2.length) && jsDotMatch (s2.getD (k + 1) ' '))
  match ks.getLast? with
  | none => none
  | some k => some (s2.take k, (s2.drop (k + 1)).takeWhile jsDotMatch)

/-- Try to match `([^\.]+)\.(\S+)=(.+)` at the start of `l`. -/
def matchBoardLineAt (l : List Char) : Option (String × String × String) :=
  let g1 := l.takeWhile (fun c => !(c == '.'))
  if g1.isEmpty then none
  else
    match l.drop g1.length with
    | '.' :: s2 =>
      match findEqSplit s2 with
      | some (g2, g3) => some (⟨g1⟩, ⟨g2⟩, ⟨g3⟩)
      | none => none
    | _ => none

/-- `boardLineRegex.exec(line)`: the leftmost match, with the three groups
(the guard `match.length > 3` always holds for a successful match of a
three-group regex). -/
def execBoardLineRegex : List Char → Option (String × String × String)
  | [] => none
  | c :: rest =>
    match matchBoardLineAt (c :: rest) with
    | some r => some r
    | none => execBoardLineRegex rest

/-- The `IBoard` objects built by the parser; the platform reference is an
opaque value of type `P`.  `name` is `none` until a `name` line is seen. -/
structure ParsedBoard (P : Type) where
  board : String
  name : Option String
  parameters : List (String × String)
  platform : P
deriving DecidableEq

/-- The object literal created on first encounter of a board key. -/
def newBoard {P : Type} (plat : P) (p : String) : ParsedBoard P :=
  { board := p, name := none, parameters := [], platform := plat }

/-- The effect of one matched line on its board: suffix `name` sets the
trimmed display name, any other suffix stores the untrimmed value. -/
def applyBoardLine {P : Type} (suffix value : String) (bd : ParsedBoard P) : ParsedBoard P :=
  if suffix == "name" then { bd with name := some (jsTrim value) }
  else { bd with parameters := mapSet bd.parameters suffix value }

/-- Whether the `lines.forEach` body returns early for this line
("Ignore comments and menu discription lines."). -/
def isSkippedLine (line : String) : Bool :=
  jsStartsWith line "#" || jsStartsWith line "menu."

/-- The `lines.forEach` body of `parseBoardDescriptorFile`, acting on the
result map. -/
def processDescriptorLine {P : Type} (plat : P) (st : List (String × ParsedBoard P))
    (line : String) : List (String × ParsedBoard P) :=
  if isSkippedLine line then st
  else
    match execBoardLineRegex line.toList with
    | none => st
    | some (g1, g2, g3) =>
      let bd0 :=
        match mapGet st g1 with
        | some bd => bd
        | none => newBoard plat g1
      mapSet st g1 (applyBoardLine g2 g3 bd0)

/-- `BoardManager.parseBoardDescriptorFile`. -/
def parseBoardDescriptorFile {P : Type} (boardDescriptor : String) (plat : P) :
    List (String × ParsedBoard P) :=
  (splitDescriptorLines boardDescriptor).foldl (processDescriptorLine plat) []

/-- The matched (prefix, suffix, value) triples of the non-skipped lines,
in order. -/
def lineTriples (lines : List String) : List (String × String × String) :=
  lines.filterMap (fun line =>
    if isSkippedLine line then none
    else execBoardLineRegex line.toList)

/-- The (suffix, value) pairs of the triples carrying the given board
key. -/
def triplesFor (p : String) (ts : List (String × String × String)) :
    List (String × String) :=
  ts.filterMap (fun t => if t.1 == p then some t.2 else none)

/-- The board a key's (suffix, value) pairs build up, starting from the
fresh object literal. -/
def buildBoardSpec {P : Type} (plat : P) (p : String) (svs : List (String × String)) :
    ParsedBoard P :=
  svs.foldl (fun bd sv => applyBoardLine sv.1 sv.2 bd) (newBoard plat p)

/-- The board a key maps to, given its (suffix, value) pairs: none when
the key never occurs. -/
def boardFromTriples {P : Type} (plat : P) (p : String) (svs : List (String × String)) :
    Option (ParsedBoard P) :=
  match svs with
  | [] => none
  | _ => some (buildBoardSpec plat p svs)

/-! ## C6: `ExampleManager.parseExamplesFromLibrary` / `isSupported` -/

/-- What `parseExamplesFromLibrary` reads about one library folder: its
name, whether `library.properties` exists, the parsed `architectures`
property (absent when the file has no such field), and the example tree
parsed from its `examples` folder (an opaque payload `C`, only its
emptiness is consulted). -/
structure LibraryListing (C : Type) where
  name : String
  hasPropertiesFile : Bool
  architectures : Option String
  exampleChildren : List C
deriving DecidableEq

/-- The entries of the list `parseExamplesFromLibrary` returns: library
nodes `{name, path, children}`, and the trailing INCOMPATIBLE group
wrapping the incompatible library nodes. -/
inductive ExampleEntry (C : Type) : Type where
  | library (name : String) (path : List String) (children : List C)
  | incompatibleGroup (children : List (ExampleEntry C))

/-- The node pushed for a listed library. -/
def mkLibEntry {C : Type} (rootPath : List String) (lib : LibraryListing C) :
    ExampleEntry C :=
  .library lib.name (rootPath ++ [lib.name]) lib.exampleChildren

/-- `str.indexOf(needle) >= 0`: substring search. -/
def listIsInfixOf (needle : List Char) : List Char → Bool
  | [] => needle.isEmpty
  | c :: rest => needle.isPrefixOf (c :: rest) || listIsInfixOf needle rest

/-- `architectures.indexOf(x) >= 0` — `architectures` is the raw property
string, so this is substring containment. -/
def jsStringIncludes (hay needle : String) : Bool :=
  listIsInfixOf needle.toList hay.toList

/-- `ExampleManager.isSupported`.  `!architectures` is JavaScript
truthiness (an absent or empty field fails); with no current board every
truthy field passes; otherwise the field must contain the target
architecture or `"*"` as a substring. -/
def isSupported (architectures : Option String) (currentBoardArch : Option String) :
    Bool :=
  match architectures with
  | none => false
  | some a =>
    if a == "" then false
    else
      match currentBoardArch with
      | none => true
      | some targetArch => jsStringIncludes a targetArch || jsStringIncludes a "*"

/-- The body of the `for (const library of libraries)` loop, accumulating
the (examples, inCompatibles) pair.  Libraries without a properties file
or without parsed examples are skipped. -/
def libraryStep {C : Type} (rootPath : List String) (target : Option String)
    (needParsingIncompatible : Bool)
    (acc : List (ExampleEntry C) × List (ExampleEntry C)) (lib : LibraryListing C) :
    List (ExampleEntry C) × List (ExampleEntry C) :=
  if lib.hasPropertiesFile then
    if 0 < lib.exampleChildren.length then
      if isSupported lib.architectures target then
        (acc.1 ++ [mkLibEntry rootPath lib], acc.2)
      else if needParsingIncompatible then
        (acc.1, acc.2 ++ [mkLibEntry rootPath lib])
      else acc
    else acc
  else acc

/-- `ExampleManager.parseExamplesFromLibrary`: fold the libraries, then
append the INCOMPATIBLE group when requested and non-empty. -/
def parseExamplesFromLibrary {C : Type} (rootPath : List String)
    (target : Option String) (needParsingIncompatible : Bool)
    (libs : List (LibraryListing C)) : List (ExampleEntry C) :=
  let pair := libs.foldl (libraryStep rootPath target needParsingIncompatible) ([], [])
  if needParsingIncompatible && !pair.2.isEmpty then
    pair.1 ++ [.incompatibleGroup pair.2]
  else pair.1

/-- Whether a library lands in the compatible `examples` list. -/
def isCompatLib {C : Type} (target : Option String) (lib : LibraryListing C) : Bool :=
  lib.hasPropertiesFile && decide (0 < lib.exampleChildren.length) &&
    isSupported lib.architectures target

/-- Whether a library lands in the `inCompatibles` list. -/
def isIncompatLib {C : Type} (target : Option String) (needParsingIncompatible : Bool)
    (lib : LibraryListing C) : Bool :=
  lib.hasPropertiesFile && decide (0 < lib.exampleChildren.length) &&
    !isSupported lib.architectures target && needParsingIncompatible

/-- What one library adds to the compatible list. -/
def compatContribution {C : Type} (rootPath : List String) (target : Option String)
    (lib : LibraryListing C) : List (ExampleEntry C) :=
  if isCompatLib target lib then [mkLibEntry rootPath lib] else []

/-- What one library adds to the incompatible list. -/
def incompatContribution {C : Type} (rootPath : List String) (target : Option String)
    (needParsingIncompatible : Bool) (lib : LibraryListing C) : List (ExampleEntry C) :=
  if isIncompatLib target needParsingIncompatible lib then [mkLibEntry rootPath lib]
  else []

/-- Library with a present but empty `architectures` field, used to
exhibit the truthiness behaviour of `isSupported`. -/
def libEmptyArchW : LibraryListing Unit := ⟨"Lib", true, some "", [()]⟩

/-- Library used to witness the amended C6 statement. -/
def libServoW : LibraryListing Unit := ⟨"Servo", true, some "avr", [()]⟩

/-! ## C10: `ExampleManager.parseExamples` / `isExampleFolder` -/

/-- The fields of the `IExampleNode` objects the tree builder creates.
The root node is created as `{children: []}`; its other fields are absent,
so `isLeaf` behaves as `false` and `name` as the empty string.  `children`
holds the (resolved) paths of the child nodes: every node object is also
stored in the example map under its resolved path, so a path identifies
the node. -/
structure ExampleNodeData where
  name : String
  path : List String
  isLeaf : Bool
  children : List (List String)
deriving DecidableEq

/-- `str.endsWith(suffix)`, computed on the character lists. -/
def jsEndsWith (s suf : String) : Bool := suf.toList.isSuffixOf s.toList

/-- `ExampleManager.isExampleFolder` over the directory listing of the
folder: each entry is (name, is-it-a-file); an `.ino` file among the
immediate entries makes the folder a leaf. -/
def isExampleFolder (entries : List (String × Bool)) : Bool :=
  (entries.find? (fun it => it.2 && jsEndsWith it.1 ".ino")).isSome

/-- The node object created for the folder at `cur`. -/
def mkExampleNode (fsListing : List String → List (String × Bool))
    (cur : List String) : ExampleNodeData :=
  { name := cur.getLastD ""
    path := cur
    isLeaf := isExampleFolder (fsListing cur)
    children := [] }

/-- The body of the `for (let i = 1; ...)` loop of `parseExamples`: look
up the parent by `path.dirname` (`dropLast` on segment paths); when it
exists and is not a leaf, store the new node under its path and push the
path onto the parent's children. -/
def exampleStep (fsListing : List String → List (String × Bool))
    (st : List (List String × ExampleNodeData)) (cur : List String) :
    List (List String × ExampleNodeData) :=
  match mapGet st cur.dropLast with
  | none => st
  | some parent =>
    if parent.isLeaf then st
    else
      let node : ExampleNodeData := mkExampleNode fsListing cur
      updateFirst (fun e => e.1 == cur.dropLast)
        (fun e => (e.1, { e.2 with children := e.2.children ++ [cur] }))
        (mapSet st cur node)

/-- `ExampleManager.parseExamples` over the glob result (the folder list,
parents before children; `glob.sync` yields the root folder first and
never repeats a path).  The value is the example map: the returned tree's
nodes are exactly the non-root stored nodes, linked by the stored child
paths. -/
def parseExamples (fsListing : List String → List (String × Bool))
    (folders : List (List String)) : List (List String × ExampleNodeData) :=
  match folders with
  | [] => []
  | f0 :: rest =>
    rest.foldl (exampleStep fsListing)
      [(f0, { name := "", path := f0, isLeaf := false, children := [] })]

theorem mem_addBundledPlatform {dpp : List String} {pkgName : String}
    {acc : List InstalledPlatformInfo} {p : BundledPlatformEntry}
    {e : InstalledPlatformInfo}
    (h : e ∈ addBundledPlatform dpp pkgName acc p) :
    e ∈ acc ∨ (p.version ≠ "" ∧ e = defaultPlatformEntry dpp pkgName p) := by
  unfold addBundledPlatform at h
  by_cases hv : p.version = ""
  · simp [hv] at h
    exact Or.inl h
  · simp [hv] at h
    rcases h with h | h
    · exact Or.inl h
    · exact Or.inr ⟨hv, h⟩

theorem mem_foldl_addBundledPlatform {dpp : List String} {pkgName : String}
    {ps : List BundledPlatformEntry} {acc : List InstalledPlatformInfo}
    {e : InstalledPlatformInfo}
    (h : e ∈ ps.foldl (addBundledPlatform dpp pkgName) acc) :
    e ∈ acc ∨ ∃ p ∈ ps, p.version ≠ "" ∧ e = defaultPlatformEntry dpp pkgName p := by
  induction ps generalizing acc with
  | nil => exact Or.inl h
  | cons p ps ih =>
    rcases ih h with h' | ⟨q, hq, hv, he⟩
    · rcases mem_addBundledPlatform h' with h'' | ⟨hv, he⟩
      · exact Or.inl h''
      · exact Or.inr ⟨p, List.mem_cons_self .., hv, he⟩
    · exact Or.inr ⟨q, List.mem_cons_of_mem _ hq, hv, he⟩

theorem mem_foldl_packages {dpp : List String} {pkgs : List BundledPackage}
    {acc : List InstalledPlatformInfo} {e : InstalledPlatformInfo}
    (h : e ∈ pkgs.foldl
      (fun acc pkg => pkg.platforms.foldl (addBundledPlatform dpp pkg.name) acc) acc) :
    e ∈ acc ∨ ∃ pkg ∈ pkgs, ∃ p ∈ pkg.platforms,
      p.version ≠ "" ∧ e = defaultPlatformEntry dpp pkg.name p := by
  induction pkgs generalizing acc with
  | nil => exact Or.inl h
  | cons pkg pkgs ih =>
    rcases ih h with h' | ⟨q, hq, p, hp, hv, he⟩
    · rcases mem_foldl_addBundledPlatform h' with h'' | ⟨p, hp, hv, he⟩
      · exact Or.inl h''
      · exact Or.inr ⟨pkg, List.mem_cons_self .., p, hp, hv, he⟩
    · exact Or.inr ⟨q, List.mem_cons_of_mem _ hq, p, hp, hv, he⟩

/-- C8: `getDefaultPlatforms` never throws: a missing, empty or invalid
bundled index yields the empty list, and every returned entry has
`defaultPlatform = true` and a non-empty version coming from some platform
of the bundled index. -/
theorem getDefaultPlatforms_safe (dpp : List String) (file : BundledFileState) :
    ((file = .missing ∨ file = .emptyFile ∨ file = .invalidJson) →
        getDefaultPlatforms dpp file = []) ∧
    (∀ e ∈ getDefaultPlatforms dpp file,
      e.defaultPlatform = true ∧ e.version ≠ "" ∧
        ∃ idx pkgs, file = .parsed idx ∧ idx.packages = some pkgs ∧
          ∃ pkg ∈ pkgs, ∃ p ∈ pkg.platforms,
            e.version = p.version ∧ e.architecture = p.architecture ∧
              e.packageName = pkg.name) := by
  constructor
  · rintro (rfl | rfl | rfl) <;> rfl
  · intro e he
    match file with
    | .missing => simp [getDefaultPlatforms] at he
    | .emptyFile => simp [getDefaultPlatforms] at he
    | .invalidJson => simp [getDefaultPlatforms] at he
    | .parsed idx =>
      match hpk : idx.packages with
      | none => simp [getDefaultPlatforms, hpk] at he
      | some pkgs =>
        simp only [getDefaultPlatforms, hpk] at he
        rcases mem_foldl_packages he with h | ⟨pkg, hpkg, p, hp, hv, he'⟩
        · simp at h
        · subst he'
          exact ⟨rfl, hv, idx, pkgs, rfl, hpk,
            pkg, hpkg, p, hp, rfl, rfl, rfl⟩

/-- Witness for `getDefaultPlatforms_safe` at a concrete input. -/
theorem getDefaultPlatforms_safe_witness :
    getDefaultPlatforms [] .missing = [] :=
  (getDefaultPlatforms_safe [] .missing).1 (Or.inl rfl)

/-- C7, counterexample: a body whose `packageName` is present but equal to
the empty string has both parameters, yet the handler answers 400 and does
not call `installBoard` (JavaScript truthiness: `!""` holds). -/
theorem installPackage_empty_param_counterexample :
    (InstallBody.mk (some "") (some "avr") none).packageName ≠ none ∧
    (InstallBody.mk (some "") (some "avr") none).arch ≠ none ∧
    (installPackage ⟨some "", some "avr", none⟩ (.ok ())).1 ≠ .jsonOK ∧
    (installPackage ⟨some "", some "avr", none⟩ (.ok ())).2 = false := by
  decide

/-- C7 as amended: the handler answers 400 without invoking installation
when `packageName` or `arch` is missing or empty; when both are present
and non-empty it invokes `installBoard` and answers `{status: "OK"}` on
success and 500 on failure. -/
theorem installPackage_responses (body : InstallBody) (r : Except InstallError Unit) :
    ((jsTruthy body.packageName = false ∨ jsTruthy body.arch = false) →
      installPackage body r =
        (.badRequest "BAD Request! Missing \x7b packageName, arch \x7d parameters!", false)) ∧
    (jsTruthy body.packageName = true → jsTruthy body.arch = true →
      (installPackage body r).2 = true ∧
      (∀ u, r = .ok u → (installPackage body r).1 = .jsonOK) ∧
      (∀ e, r = .error e → (installPackage body r).1 =
        .serverError ("Install board failed with message \"code:" ++ e.code ++
          ", err:" ++ e.stderr ++ "\""))) := by
  refine ⟨?_, ?_⟩
  · rintro (h | h) <;> simp [installPackage, h]
  · intro h1 h2
    refine ⟨?_, ?_, ?_⟩
    · cases r <;> simp [installPackage, h1, h2]
    · rintro u rfl
      simp [installPackage, h1, h2]
    · rintro e rfl
      simp [installPackage, h1, h2]

/-- Witness for `installPackage_responses` at a concrete input. -/
theorem installPackage_responses_witness :
    (installPackage ⟨some "arduino", some "avr", none⟩ (.ok ())).1 = .jsonOK :=
  (((installPackage_responses ⟨some "arduino", some "avr", none⟩ (.ok ())).2
    (by decide) (by decide)).2.1) () rfl

theorem foldl_flatMap {α β γ : Type} (f : γ → β → γ) (g : α → List β) (l : List α) (init : γ) :
    (l.flatMap g).foldl f init = l.foldl (fun acc a => (g a).foldl f acc) init := by
  induction l generalizing init with
  | nil => rfl
  | cons a l ih => simp [List.foldl_append, ih]

theorem find?_isSome_iff_filter_ne_nil {α : Type} (p : α → Bool) (l : List α) :
    (l.find? p).isSome = true ↔ l.filter p ≠ [] := by
  induction l with
  | nil => simp
  | cons x rest ih =>
    cases hx : p x <;> simp [List.find?_cons, hx, List.filter_cons, ih]

theorem filter_updateFirst_of_disjoint {α : Type} (p q : α → Bool) (f : α → α) (l : List α)
    (hpq : ∀ x, p x = true → q x = false) (hf : ∀ x, q (f x) = q x) :
    (updateFirst p f l).filter q = l.filter q := by
  induction l with
  | nil => rfl
  | cons x rest ih =>
    cases hpx : p x
    · simp [updateFirst, hpx, List.filter_cons, ih]
    · simp [updateFirst, hpx, List.filter_cons, hf, hpq x hpx]

theorem filter_updateFirst_self {α : Type} (p : α → Bool) (f : α → α) (l : List α) (x : α)
    (hl : l.filter p = [x]) (hf : ∀ y, p (f y) = p y) :
    (updateFirst p f l).filter p = [f x] := by
  induction l with
  | nil => simp at hl
  | cons y rest ih =>
    cases hpy : p y
    · rw [List.filter_cons_of_neg (by simp [hpy])] at hl
      simpa [updateFirst, hpy, List.filter_cons_of_neg, hf] using ih hl
    · rw [List.filter_cons_of_pos (by simp [hpy])] at hl
      have hyx : y = x := by
        have := congrArg List.head? hl
        simpa using this
      have hrest : List.filter p rest = [] := by
        have := congrArg List.tail hl
        simpa using this
      subst hyx
      simp [updateFirst, hpy, List.filter_cons, hf, hrest]

theorem mem_boardNames_boardUnion (a b : List IdxBoard) (n : String) :
    n ∈ boardNames (boardUnion a b) ↔ n ∈ boardNames a ∨ n ∈ boardNames b := by
  induction b generalizing a with
  | nil => simp [boardUnion, boardNames]
  | cons x b ih =>
    show n ∈ boardNames (boardUnion (if a.any (fun y => x.name == y.name) then a
      else a ++ [x]) b) ↔ _
    cases hx : a.any (fun y => x.name == y.name)
    · rw [if_neg (by simp [hx])]
      rw [ih]
      simp only [boardNames, List.map_append, List.map_cons, List.map_nil,
        List.mem_append, List.mem_cons, List.mem_singleton, List.not_mem_nil, or_false]
      tauto
    · rw [if_pos (by simp [hx])]
      rw [ih]
      have hxa : x.name ∈ boardNames a := by
        obtain ⟨y, hy, he⟩ := List.any_eq_true.mp hx
        exact (eq_of_beq he) ▸ List.mem_map_of_mem IdxBoard.name hy
      simp only [boardNames, List.map_cons, List.mem_cons]
      constructor
      · tauto
      · rintro (h | rfl | h)
        · exact Or.inl h
        · exact Or.inl hxa
        · exact Or.inr h

theorem nodup_boardNames_boardUnion (a b : List IdxBoard)
    (h : (boardNames a).Nodup) : (boardNames (boardUnion a b)).Nodup := by
  induction b generalizing a with
  | nil => exact h
  | cons x b ih =>
    show ((boardNames (boardUnion (if a.any (fun y => x.name == y.name) then a
      else a ++ [x]) b))).Nodup
    cases hx : a.any (fun y => x.name == y.name)
    · rw [if_neg (by simp [hx])]
      apply ih
      have hxa : x.name ∉ boardNames a := by
        intro hmem
        obtain ⟨y, hy, he⟩ := List.mem_map.mp hmem
        have : a.any (fun z => x.name == z.name) = true :=
          List.any_eq_true.mpr ⟨y, hy, beq_iff_eq.mpr he.symm⟩
        simp [this] at hx
      simpa [boardNames, List.nodup_append] using And.intro h hxa
    · rw [if_pos (by simp [hx])]
      exact ih a h

theorem mem_boardNames_foldl_boardUnion (init : List IdxBoard)
    (rs : List (String × RawPlatform)) (n : String) :
    n ∈ boardNames (rs.foldl (fun acc r => boardUnion acc r.2.boards) init) ↔
      n ∈ boardNames init ∨ ∃ r ∈ rs, n ∈ boardNames r.2.boards := by
  induction rs generalizing init with
  | nil => simp
  | cons r rs ih =>
    rw [List.foldl_cons, ih, mem_boardNames_boardUnion]
    simp only [List.mem_cons]
    constructor
    · rintro ((h | h) | ⟨r', hr', h⟩)
      · exact Or.inl h
      · exact Or.inr ⟨r, Or.inl rfl, h⟩
      · exact Or.inr ⟨r', Or.inr hr', h⟩
    · rintro (h | ⟨r', (rfl | hr'), h⟩)
      · exact Or.inl (Or.inl h)
      · exact Or.inl (Or.inr h)
      · exact Or.inr ⟨r', hr', h⟩

theorem nodup_boardNames_foldl_boardUnion (init : List IdxBoard)
    (rs : List (String × RawPlatform)) (h : (boardNames init).Nodup) :
    (boardNames (rs.foldl (fun acc r => boardUnion acc r.2.boards) init)).Nodup := by
  induction rs generalizing init with
  | nil => exact h
  | cons r rs ih => exact ih _ (nodup_boardNames_boardUnion _ _ h)

theorem parsePackageIndex_eq_foldl (st : List MergedPlatform) (idx : PackageIndex) :
    parsePackageIndex st idx =
      (idx.packages.flatMap (fun pkg => pkg.platforms.map (fun p => (pkg.name, p)))).foldl
        (fun s e => addPlatformEntry s e.1 e.2) st := by
  unfold parsePackageIndex
  rw [foldl_flatMap]
  simp [List.foldl_map]

theorem loadPackageIndexes_eq_foldl_aux (files : List PackageIndex)
    (init : List MergedPlatform) :
    files.foldl parsePackageIndex init =
      (indexEntries files).foldl (fun s e => addPlatformEntry s e.1 e.2) init := by
  induction files generalizing init with
  | nil => rfl
  | cons f fs ih =>
    show fs.foldl parsePackageIndex (parsePackageIndex init f) = _
    rw [ih]
    have hsplit : indexEntries (f :: fs) =
        (f.packages.flatMap (fun pkg => pkg.platforms.map (fun p => (pkg.name, p)))) ++
          indexEntries fs := by
      simp [indexEntries]
    rw [hsplit, List.foldl_append, ← parsePackageIndex_eq_foldl]

theorem loadPackageIndexes_eq_foldl (files : List PackageIndex) :
    loadPackageIndexes files =
      (indexEntries files).foldl (fun s e => addPlatformEntry s e.1 e.2) [] :=
  loadPackageIndexes_eq_foldl_aux files []

theorem platformKeyMatches_mergePlatformEntry (pn ar : String) (p : RawPlatform)
    (q : MergedPlatform) :
    platformKeyMatches pn ar (mergePlatformEntry p q) = platformKeyMatches pn ar q := rfl

theorem addPlatformEntry_of_found (st : List MergedPlatform) (pkgName : String)
    (p : RawPlatform)
    (hf : (st.find? (platformKeyMatches pkgName p.architecture)).isSome = true) :
    addPlatformEntry st pkgName p =
      updateFirst (platformKeyMatches pkgName p.architecture) (mergePlatformEntry p) st := by
  unfold addPlatformEntry
  rw [if_pos hf]

theorem addPlatformEntry_of_not_found (st : List MergedPlatform) (pkgName : String)
    (p : RawPlatform)
    (hf : (st.find? (platformKeyMatches pkgName p.architecture)).isSome = false) :
    addPlatformEntry st pkgName p = st ++ [newMergedPlatform pkgName p] := by
  unfold addPlatformEntry
  rw [if_neg (by simp [hf])]

theorem filter_addPlatformEntry_ne (S : List MergedPlatform) (pkgName : String)
    (p : RawPlatform) (pn ar : String)
    (h : entryKeyMatches pn ar (pkgName, p) = false) :
    (addPlatformEntry S pkgName p).filter (platformKeyMatches pn ar) =
      S.filter (platformKeyMatches pn ar) := by
  unfold addPlatformEntry
  cases hf : (S.find? (platformKeyMatches pkgName p.architecture)).isSome
  · rw [if_neg (by simp [hf])]
    rw [List.filter_append]
    have : platformKeyMatches pn ar (newMergedPlatform pkgName p) = false := h
    simp [this]
  · rw [if_pos (by simp [hf])]
    apply filter_updateFirst_of_disjoint
    · intro x hx
      have h1 : x.architecture = p.architecture ∧ x.packageName = pkgName := by
        have := hx
        unfold platformKeyMatches at this
        exact ⟨eq_of_beq (Bool.and_elim_left this), eq_of_beq (Bool.and_elim_right this)⟩
      unfold platformKeyMatches
      unfold entryKeyMatches at h
      rw [h1.1, h1.2]
      exact h
    · exact platformKeyMatches_mergePlatformEntry pn ar p

theorem buildMergedPlatform_append (e0 : String × RawPlatform)
    (rest : List (String × RawPlatform)) (e : String × RawPlatform) :
    buildMergedPlatform e0 (rest ++ [e]) =
      mergePlatformEntry e.2 (buildMergedPlatform e0 rest) := by
  simp [buildMergedPlatform, mergePlatformEntry, List.map_append, List.foldl_append]

theorem foldl_addPlatformEntry_filter (es : List (String × RawPlatform)) :
    ∀ pn ar : String,
      ((es.foldl (fun s e => addPlatformEntry s e.1 e.2) []).filter
        (platformKeyMatches pn ar)) = mergedOfEntries (entriesFor pn ar es) := by
  induction es using List.reverseRecOn with
  | nil => intro pn ar; rfl
  | append_singleton es e ih =>
    intro pn ar
    rw [List.foldl_append, List.foldl_cons, List.foldl_nil]
    have hsplit : entriesFor pn ar (es ++ [e]) =
        entriesFor pn ar es ++ List.filter (entryKeyMatches pn ar) [e] := by
      simp [entriesFor]
    rw [hsplit]
    cases hmatch : entryKeyMatches pn ar e
    · have h1 : List.filter (entryKeyMatches pn ar) [e] = [] := by
        simp [List.filter_cons, hmatch]
      rw [h1, List.append_nil]
      rw [filter_addPlatformEntry_ne _ _ _ _ _ (by simpa using hmatch)]
      exact ih pn ar
    · have h1 : List.filter (entryKeyMatches pn ar) [e] = [e] := by
        simp [List.filter_cons, hmatch]
      rw [h1]
      have hm : e.2.architecture = ar ∧ e.1 = pn := by
        have h2 := hmatch
        unfold entryKeyMatches at h2
        simpa using h2
      have ihk := ih pn ar
      match hes : entriesFor pn ar es with
      | [] =>
        rw [hes] at ihk
        have ihk' : List.filter (platformKeyMatches pn ar)
            (es.foldl (fun s e => addPlatformEntry s e.1 e.2) []) = [] := ihk
        have hfind : ((es.foldl (fun s e => addPlatformEntry s e.1 e.2) []).find?
            (platformKeyMatches pn e.2.architecture)).isSome = false := by
          rw [hm.1, Bool.eq_false_iff]
          intro hs
          exact ((find?_isSome_iff_filter_ne_nil _ _).mp hs) ihk'
        rw [hm.2, addPlatformEntry_of_not_found _ _ _ hfind]
        rw [List.filter_append, ihk']
        simp [List.filter_cons, platformKeyMatches, mergedOfEntries, buildMergedPlatform,
          newMergedPlatform, hm.1, hm.2]
      | e0 :: rest =>
        rw [hes] at ihk
        have ihk' : List.filter (platformKeyMatches pn ar)
            (es.foldl (fun s e => addPlatformEntry s e.1 e.2) []) =
              [buildMergedPlatform e0 rest] := ihk
        have hfind : ((es.foldl (fun s e => addPlatformEntry s e.1 e.2) []).find?
            (platformKeyMatches pn e.2.architecture)).isSome = true := by
          rw [hm.1, find?_isSome_iff_filter_ne_nil, ihk']
          simp
        rw [hm.2, addPlatformEntry_of_found _ _ _ hfind]
        rw [hm.1]
        rw [filter_updateFirst_self _ _ _ _ ihk'
          (platformKeyMatches_mergePlatformEntry pn ar e.2)]
        simp [mergedOfEntries, buildMergedPlatform_append]

theorem loadPackageIndexes_filter (files : List PackageIndex) (pn ar : String) :
    (loadPackageIndexes files).filter (platformKeyMatches pn ar) =
      mergedOfEntries (entriesFor pn ar (indexEntries files)) := by
  rw [loadPackageIndexes_eq_foldl]
  exact foldl_addPlatformEntry_filter (indexEntries files) pn ar

/-- C1, counterexample: two index files whose platforms share the
architecture `avr` but belong to different packages are *not* merged into
a single platform — the merge is keyed on the (package name, architecture)
pair, so the result holds two platforms of architecture `avr`. -/
theorem parsePackageIndex_not_merged_across_packages :
    ((loadPackageIndexes [pkgIndexA, pkgIndexB]).filter
        (fun q => q.architecture == "avr")).length = 2 ∧
    (pkgIndexA.packages.flatMap (fun pkg => pkg.platforms)).map
        (fun p => p.architecture) = ["avr"] ∧
    (pkgIndexB.packages.flatMap (fun pkg => pkg.platforms)).map
        (fun p => p.architecture) = ["avr"] := by
  decide

/-- C1 as amended: platform entries for the same *(package name,
architecture)* pair across the processed index files are merged into a
single platform; provided every entry lists pairwise-distinct board names,
its board list carries each board name of the merged entries exactly once,
and its `versions` list has the version of every merged entry. -/
theorem parsePackageIndex_merges_same_package_architecture
    (files : List PackageIndex) (pn ar : String)
    (hne : entriesFor pn ar (indexEntries files) ≠ [])
    (hnd : ∀ e ∈ indexEntries files, (boardNames e.2.boards).Nodup) :
    ∃ q, (loadPackageIndexes files).filter (platformKeyMatches pn ar) = [q] ∧
      q.versions = (entriesFor pn ar (indexEntries files)).map (fun e => e.2.version) ∧
      (∀ n, n ∈ boardNames q.boards ↔
        ∃ e ∈ entriesFor pn ar (indexEntries files), n ∈ boardNames e.2.boards) ∧
      (boardNames q.boards).Nodup := by
  rw [loadPackageIndexes_filter]
  match hes : entriesFor pn ar (indexEntries files) with
  | [] => exact absurd hes hne
  | e0 :: rest =>
    have he0 : e0 ∈ indexEntries files := by
      have : e0 ∈ entriesFor pn ar (indexEntries files) := by
        rw [hes]; exact List.mem_cons_self ..
      exact List.mem_of_mem_filter this
    refine ⟨buildMergedPlatform e0 rest, rfl, rfl, ?_, ?_⟩
    · intro n
      show n ∈ boardNames (rest.foldl (fun acc r => boardUnion acc r.2.boards) e0.2.boards) ↔ _
      rw [mem_boardNames_foldl_boardUnion]
      constructor
      · rintro (h | ⟨r, hr, h⟩)
        · exact ⟨e0, List.mem_cons_self .., h⟩
        · exact ⟨r, List.mem_cons_of_mem _ hr, h⟩
      · rintro ⟨r, hr, h⟩
        rcases List.mem_cons.mp hr with rfl | hr'
        · exact Or.inl h
        · exact Or.inr ⟨r, hr', h⟩
    · exact nodup_boardNames_foldl_boardUnion _ _ (hnd e0 he0)

/-- Witness for `parsePackageIndex_merges_same_package_architecture` at a
concrete pair of index files. -/
theorem parsePackageIndex_merges_same_package_architecture_witness :
    ∃ q, (loadPackageIndexes pkgIndexW).filter (platformKeyMatches "arduino" "avr") = [q] ∧
      q.versions = (entriesFor "arduino" "avr" (indexEntries pkgIndexW)).map
        (fun e => e.2.version) ∧
      (∀ n, n ∈ boardNames q.boards ↔
        ∃ e ∈ entriesFor "arduino" "avr" (indexEntries pkgIndexW),
          n ∈ boardNames e.2.boards) ∧
      (boardNames q.boards).Nodup :=
  parsePackageIndex_merges_same_package_architecture pkgIndexW "arduino" "avr"
    (by decide) (by decide)

theorem pairMatches_overrideWith (pn ar : String) (m d : InstalledPlatformInfo) :
    pairMatches pn ar (overrideWith m d) = pairMatches pn ar d := rfl

theorem filter_eq_nil_of_all_false {α : Type} (p : α → Bool) (l : List α)
    (h : ∀ y ∈ l, p y = false) : l.filter p = [] := by
  induction l with
  | nil => rfl
  | cons y rest ih =>
    rw [List.filter_cons_of_neg (by simp [h y (List.mem_cons_self ..)])]
    exact ih (fun y hy => h y (List.mem_cons_of_mem _ hy))

theorem filter_pairMatches_nil_of_not_mem (l : List InstalledPlatformInfo) (pn ar : String)
    (h : (pn, ar) ∉ platformKeys l) : l.filter (pairMatches pn ar) = [] := by
  apply filter_eq_nil_of_all_false
  intro y hy
  cases hpy : pairMatches pn ar y
  · rfl
  · exfalso
    have hk : y.packageName = pn ∧ y.architecture = ar := by
      have := hpy; unfold pairMatches at this; simpa using this
    apply h
    rw [← hk.1, ← hk.2]
    exact List.mem_map_of_mem _ hy

theorem filter_pairMatches_singleton (l : List InstalledPlatformInfo) (pn ar : String)
    (x : InstalledPlatformInfo) (hnd : (platformKeys l).Nodup) (hx : x ∈ l)
    (hpx : pairMatches pn ar x = true) : l.filter (pairMatches pn ar) = [x] := by
  induction l with
  | nil => cases hx
  | cons y rest ih =>
    have hkeys : (y.packageName, y.architecture) ∉ platformKeys rest ∧
        (platformKeys rest).Nodup := by
      have : platformKeys (y :: rest) = (y.packageName, y.architecture) :: platformKeys rest :=
        rfl
      rw [this] at hnd
      exact ⟨(List.nodup_cons.mp hnd).1, (List.nodup_cons.mp hnd).2⟩
    rcases List.mem_cons.mp hx with rfl | hx'
    · rw [List.filter_cons_of_pos (by simp [hpx])]
      have hk : x.packageName = pn ∧ x.architecture = ar := by
        have := hpx; unfold pairMatches at this; simpa using this
      rw [filter_pairMatches_nil_of_not_mem rest pn ar (by rw [← hk.1, ← hk.2]; exact hkeys.1)]
    · have hk : x.packageName = pn ∧ x.architecture = ar := by
        have := hpx; unfold pairMatches at this; simpa using this
      have hpy : pairMatches pn ar y = false := by
        cases hpy : pairMatches pn ar y
        · rfl
        · exfalso
          have hky : y.packageName = pn ∧ y.architecture = ar := by
            have := hpy; unfold pairMatches at this; simpa using this
          apply hkeys.1
          rw [hky.1, hky.2, ← hk.1, ← hk.2]
          exact List.mem_map_of_mem _ hx'
      rw [List.filter_cons_of_neg (by simp [hpy])]
      exact ih hkeys.2 hx'

theorem filter_installStep_ne (S : List InstalledPlatformInfo)
    (m : InstalledPlatformInfo) (pn ar : String)
    (h : pairMatches pn ar m = false) :
    (installStep S m).filter (pairMatches pn ar) = S.filter (pairMatches pn ar) := by
  unfold installStep
  cases hf : (S.find? (pairMatches m.packageName m.architecture)).isSome
  · rw [if_neg (by simp [hf])]
    rw [List.filter_append, List.filter_cons_of_neg (by simp [h]), List.filter_nil,
      List.append_nil]
  · rw [if_pos (by simp [hf])]
    apply filter_updateFirst_of_disjoint
    · intro x hx
      have h1 : x.packageName = m.packageName ∧ x.architecture = m.architecture := by
        have := hx; unfold pairMatches at this; simpa using this
      unfold pairMatches
      unfold pairMatches at h
      rw [h1.1, h1.2]
      exact h
    · exact pairMatches_overrideWith pn ar m

theorem getInstalledPlatforms_filter (defaults : List InstalledPlatformInfo)
    (hd : (platformKeys defaults).Nodup) (manuals : List InstalledPlatformInfo) :
    (platformKeys manuals).Nodup →
    ∀ pn ar : String,
      (getInstalledPlatforms defaults manuals).filter (pairMatches pn ar) =
        resolvedPair (defaults.filter (pairMatches pn ar))
          (manuals.filter (pairMatches pn ar)) := by
  induction manuals using List.reverseRecOn with
  | nil => intro _ pn ar; rfl
  | append_singleton ms m ih =>
    intro hnd pn ar
    have hkeys : (platformKeys ms).Nodup ∧
        (m.packageName, m.architecture) ∉ platformKeys ms := by
      have hsp : platformKeys (ms ++ [m]) =
          platformKeys ms ++ [(m.packageName, m.architecture)] := by
        simp [platformKeys]
      rw [hsp] at hnd
      obtain ⟨h1, _, h3⟩ := List.nodup_append.mp hnd
      exact ⟨h1, fun hmem => h3 hmem (List.mem_singleton_self _)⟩
    rw [show getInstalledPlatforms defaults (ms ++ [m]) =
        installStep (getInstalledPlatforms defaults ms) m from by
      simp [getInstalledPlatforms, List.foldl_append]]
    have hsplit : (ms ++ [m]).filter (pairMatches pn ar) =
        ms.filter (pairMatches pn ar) ++ List.filter (pairMatches pn ar) [m] := by
      simp
    rw [hsplit]
    cases hpm : pairMatches pn ar m
    · have h1 : List.filter (pairMatches pn ar) [m] = [] := by
        simp [List.filter_cons, hpm]
      rw [h1, List.append_nil, filter_installStep_ne _ _ _ _ hpm]
      exact ih hkeys.1 pn ar
    · have h1 : List.filter (pairMatches pn ar) [m] = [m] := by
        simp [List.filter_cons, hpm]
      rw [h1]
      have hp : m.packageName = pn ∧ m.architecture = ar := by
        have h2 := hpm; unfold pairMatches at h2; simpa using h2
      have hmsnil : ms.filter (pairMatches pn ar) = [] := by
        apply filter_pairMatches_nil_of_not_mem
        rw [← hp.1, ← hp.2]
        exact hkeys.2
      rw [hmsnil]
      have ihk : (getInstalledPlatforms defaults ms).filter (pairMatches pn ar) =
          defaults.filter (pairMatches pn ar) := by
        rw [ih hkeys.1 pn ar, hmsnil]
        rfl
      rcases hdsk : defaults.filter (pairMatches pn ar) with _ | ⟨d, ds'⟩
      · rw [hdsk] at ihk
        have hfind : ((getInstalledPlatforms defaults ms).find?
            (pairMatches m.packageName m.architecture)).isSome = false := by
          rw [hp.1, hp.2, Bool.eq_false_iff]
          intro hs
          exact (find?_isSome_iff_filter_ne_nil _ _).mp hs ihk
        have hstep : installStep (getInstalledPlatforms defaults ms) m =
            getInstalledPlatforms defaults ms ++ [m] := by
          unfold installStep
          rw [if_neg (by simp [hfind])]
        rw [hstep, List.filter_append, ihk, h1]
        rfl
      · have hone : defaults.filter (pairMatches pn ar) = [d] := by
          apply filter_pairMatches_singleton defaults pn ar d hd
          · exact List.mem_of_mem_filter (hdsk ▸ List.mem_cons_self ..)
          · exact List.of_mem_filter (hdsk ▸ List.mem_cons_self ..)
        rw [hone] at ihk
        have hfind : ((getInstalledPlatforms defaults ms).find?
            (pairMatches m.packageName m.architecture)).isSome = true := by
          rw [hp.1, hp.2, find?_isSome_iff_filter_ne_nil, ihk]
          simp
        have hstep : installStep (getInstalledPlatforms defaults ms) m =
            updateFirst (pairMatches pn ar) (overrideWith m)
              (getInstalledPlatforms defaults ms) := by
          unfold installStep
          rw [if_pos (by simp [hfind]), hp.1, hp.2]
        rw [hstep, filter_updateFirst_self _ _ _ _ ihk (pairMatches_overrideWith pn ar m)]
        rw [hdsk] at hone
        have hds' : ds' = [] := by
          have := congrArg List.tail hone
          simpa using this
        have hdd : d ∈ (d :: ds') := List.mem_cons_self ..
        rw [hds']
        rfl

/-- C2: for a (packageName, architecture) pair present among both the
bundled defaults and the manually installed platforms, the merged list has
exactly one entry for that pair, namely the default entry with
`defaultPlatform`, `version` and `rootBoardPath` overridden from the
manual one; pairs present in only one list appear unchanged. -/
theorem getInstalledPlatforms_prefers_manual (defaults manuals : List InstalledPlatformInfo)
    (hd : (platformKeys defaults).Nodup) (hm : (platformKeys manuals).Nodup)
    (pn ar : String) :
    (∀ d ∈ defaults, ∀ m ∈ manuals,
      pairMatches pn ar d = true → pairMatches pn ar m = true →
        (getInstalledPlatforms defaults manuals).filter (pairMatches pn ar) =
          [overrideWith m d]) ∧
    (∀ d ∈ defaults, pairMatches pn ar d = true →
      (∀ m ∈ manuals, pairMatches pn ar m = false) →
        (getInstalledPlatforms defaults manuals).filter (pairMatches pn ar) = [d]) ∧
    (∀ m ∈ manuals, pairMatches pn ar m = true →
      (∀ d ∈ defaults, pairMatches pn ar d = false) →
        (getInstalledPlatforms defaults manuals).filter (pairMatches pn ar) = [m]) ∧
    (∀ d m : InstalledPlatformInfo,
      (overrideWith m d).version = m.version ∧
      (overrideWith m d).rootBoardPath = m.rootBoardPath ∧
      (overrideWith m d).defaultPlatform = m.defaultPlatform ∧
      (overrideWith m d).packageName = d.packageName ∧
      (overrideWith m d).architecture = d.architecture) := by
  have hchar := getInstalledPlatforms_filter defaults hd manuals hm
  refine ⟨?_, ?_, ?_, ?_⟩
  · intro d hd' m hm' hpd hpm
    rw [hchar pn ar, filter_pairMatches_singleton defaults pn ar d hd hd' hpd,
      filter_pairMatches_singleton manuals pn ar m hm hm' hpm]
    rfl
  · intro d hd' hpd hnone
    rw [hchar pn ar, filter_pairMatches_singleton defaults pn ar d hd hd' hpd,
      filter_eq_nil_of_all_false _ _ hnone]
    rfl
  · intro m hm' hpm hnone
    rw [hchar pn ar, filter_pairMatches_singleton manuals pn ar m hm hm' hpm,
      filter_eq_nil_of_all_false _ _ hnone]
    rfl
  · intro d m
    exact ⟨rfl, rfl, rfl, rfl, rfl⟩

/-- Witness for `getInstalledPlatforms_prefers_manual` at a concrete pair
of platform lists sharing the key `("arduino", "avr")`. -/
theorem getInstalledPlatforms_prefers_manual_witness :
    (getInstalledPlatforms installedDefaultsW installedManualsW).filter
        (pairMatches "arduino" "avr") =
      [overrideWith ⟨"arduino", "avr", "1.8.0", ["user"], false⟩
        ⟨"arduino", "avr", "1.6.2", ["bundled"], true⟩] :=
  (getInstalledPlatforms_prefers_manual installedDefaultsW installedManualsW
    (by decide) (by decide) "arduino" "avr").1
    ⟨"arduino", "avr", "1.6.2", ["bundled"], true⟩ (by decide)
    ⟨"arduino", "avr", "1.8.0", ["user"], false⟩ (by decide)
    (by decide) (by decide)

theorem foldl_append_eq_flatMap {α β : Type} (g : α → List β) (l : List α) (init : List β) :
    l.foldl (fun acc x => acc ++ g x) init = init ++ l.flatMap g := by
  induction l generalizing init with
  | nil => simp
  | cons x l ih => simp [ih, List.flatMap_cons]

theorem getManuallyInstalledPlatforms_eq (packagePath : List String)
    (dirs : List PackageFolder) :
    getManuallyInstalledPlatforms packagePath (some dirs) =
      (dirs.filter (fun d => !isJunk d.packageName)).flatMap
        (packageContribution packagePath) := by
  unfold getManuallyInstalledPlatforms
  have aux : ∀ (l : List PackageFolder) (init : List InstalledPlatformInfo),
      l.foldl
        (fun acc pkg =>
          if pkg.hasHardwareDir then
            (pkg.archFolders.filter (fun a => !isJunk a.architecture)).foldl
              (fun acc2 a => acc2 ++ manualContribution packagePath pkg.packageName a) acc
          else acc)
        init = init ++ l.flatMap (packageContribution packagePath) := by
    intro l
    induction l with
    | nil => intro init; simp
    | cons pkg l ih =>
      intro init
      rw [List.foldl_cons, ih, List.flatMap_cons]
      cases hw : pkg.hasHardwareDir
      · simp [packageContribution, hw]
      · rw [if_pos rfl, foldl_append_eq_flatMap]
        simp [packageContribution, hw]
  exact (aux (dirs.filter (fun d => !isJunk d.packageName)) []).trans (by simp)

theorem mem_manualContribution (packagePath : List String) (pkgName : String)
    (a : ArchFolder) (q : InstalledPlatformInfo) :
    q ∈ manualContribution packagePath pkgName a ↔
      ∃ v rest, filterJunk a.entries = v :: rest ∧
        q = mkManualPlatform packagePath pkgName a.architecture v := by
  unfold manualContribution
  match hv : filterJunk a.entries with
  | [] => simp
  | v :: rest =>
    simp only [List.mem_singleton]
    constructor
    · intro h
      exact ⟨v, rest, rfl, h⟩
    · rintro ⟨v', rest', heq, rfl⟩
      have hv' : v = v' := by
        have := congrArg List.head? heq
        simpa using this
      rw [← hv']

/-- C5: for a non-junk package folder with a `hardware` directory and a
non-junk architecture folder inside it, the resolved version is the first
non-junk entry of the architecture folder's listing and `rootBoardPath`
points at that entry's directory; an architecture folder with no non-junk
entry contributes no platform with its (package, architecture) pair. -/
theorem getManuallyInstalledPlatforms_first_nonjunk_version
    (packagePath : List String) (dirs : List PackageFolder)
    (pkg : PackageFolder) (a : ArchFolder)
    (hpkg : pkg ∈ dirs) (hpkgj : isJunk pkg.packageName = false)
    (hhw : pkg.hasHardwareDir = true)
    (ha : a ∈ pkg.archFolders) (haj : isJunk a.architecture = false)
    (hnames : (dirs.map (fun d => d.packageName)).Nodup)
    (harchs : (pkg.archFolders.map (fun x => x.architecture)).Nodup) :
    (∀ v rest, filterJunk a.entries = v :: rest →
      mkManualPlatform packagePath pkg.packageName a.architecture v ∈
        getManuallyInstalledPlatforms packagePath (some dirs)) ∧
    (filterJunk a.entries = [] →
      ∀ q ∈ getManuallyInstalledPlatforms packagePath (some dirs),
        ¬(q.packageName = pkg.packageName ∧ q.architecture = a.architecture)) := by
  constructor
  · intro v rest hv
    rw [getManuallyInstalledPlatforms_eq]
    rw [List.mem_flatMap]
    refine ⟨pkg, List.mem_filter.mpr ⟨hpkg, by simp [hpkgj]⟩, ?_⟩
    unfold packageContribution
    rw [if_pos hhw, List.mem_flatMap]
    refine ⟨a, List.mem_filter.mpr ⟨ha, by simp [haj]⟩, ?_⟩
    rw [mem_manualContribution]
    exact ⟨v, rest, hv, rfl⟩
  · intro hempty q hq ⟨hqp, hqa⟩
    rw [getManuallyInstalledPlatforms_eq, List.mem_flatMap] at hq
    obtain ⟨pkg', hpkg', hq'⟩ := hq
    have hpkg'mem : pkg' ∈ dirs := (List.mem_filter.mp hpkg').1
    unfold packageContribution at hq'
    cases hw' : pkg'.hasHardwareDir
    · rw [if_neg (by simp [hw'])] at hq'
      cases hq'
    · rw [if_pos hw', List.mem_flatMap] at hq'
      obtain ⟨a', ha', hq''⟩ := hq'
      have ha'mem : a' ∈ pkg'.archFolders := (List.mem_filter.mp ha').1
      rw [mem_manualContribution] at hq''
      obtain ⟨v, rest, hv, rfl⟩ := hq''
      have hpp : pkg' = pkg := by
        apply List.inj_on_of_nodup_map hnames hpkg'mem hpkg
        simpa [mkManualPlatform] using hqp
      subst hpp
      have haa : a' = a := by
        apply List.inj_on_of_nodup_map harchs ha'mem ha
        simpa [mkManualPlatform] using hqa
      subst haa
      rw [hempty] at hv
      cases hv

/-- Witness for `getManuallyInstalledPlatforms_first_nonjunk_version` at a
concrete user package tree (a junk entry precedes the chosen version). -/
theorem getManuallyInstalledPlatforms_first_nonjunk_version_witness :
    mkManualPlatform ["home"] "esp32" "esp32" "2.0.1" ∈
      getManuallyInstalledPlatforms ["home"] (some manualTreeW) :=
  (getManuallyInstalledPlatforms_first_nonjunk_version ["home"] manualTreeW
    ⟨"esp32", true, [⟨"esp32", [".DS_Store", "2.0.1", "2.0.0"]⟩]⟩
    ⟨"esp32", [".DS_Store", "2.0.1", "2.0.0"]⟩
    (by decide) (by decide) (by decide) (by decide) (by decide)
    (by decide) (by decide)).1 "2.0.1" ["2.0.0"] (by decide)

theorem mapGet_mapSet_self {κ α : Type} [BEq κ] [LawfulBEq κ] (m : List (κ × α))
    (k : κ) (v : α) : mapGet (mapSet m k v) k = some v := by
  induction m with
  | nil => simp [mapSet, mapGet]
  | cons e rest ih =>
    obtain ⟨k', v'⟩ := e
    cases hk : k' == k
    · simpa [mapSet, mapGet, List.find?_cons, hk] using ih
    · simp [mapSet, mapGet, List.find?_cons, hk]

theorem mapGet_mapSet_ne {κ α : Type} [BEq κ] [LawfulBEq κ] (m : List (κ × α))
    (k k' : κ) (v : α) (h : (k' == k) = false) :
    mapGet (mapSet m k v) k' = mapGet m k' := by
  have hkk : (k == k') = false := by
    rw [beq_eq_false_iff_ne] at h ⊢
    exact fun he => h he.symm
  induction m with
  | nil => simp [mapSet, mapGet, List.find?_cons, hkk]
  | cons e rest ih =>
    obtain ⟨a, b⟩ := e
    cases ha : a == k
    · cases hak : a == k'
      · simpa [mapSet, mapGet, List.find?_cons, ha, hak] using ih
      · simp [mapSet, mapGet, List.find?_cons, ha, hak]
    · have hak : (a == k') = false := by
        have haek : a = k := eq_of_beq ha
        rw [haek]
        exact hkk
      simp [mapSet, mapGet, List.find?_cons, ha, hak]

theorem mem_mapSet {κ α : Type} [BEq κ] [LawfulBEq κ] (m : List (κ × α)) (k : κ)
    (v : α) (e : κ × α) (h : e ∈ mapSet m k v) :
    e ∈ m ∨ ((e.1 == k) = true ∧ e.2 = v) := by
  induction m with
  | nil =>
    simp [mapSet] at h
    subst h
    exact Or.inr ⟨by simp, rfl⟩
  | cons a rest ih =>
    obtain ⟨a1, a2⟩ := a
    cases ha : a1 == k
    · rw [show mapSet ((a1, a2) :: rest) k v = (a1, a2) :: mapSet rest k v from by
        simp [mapSet, ha]] at h
      rcases List.mem_cons.mp h with rfl | h'
      · exact Or.inl (List.mem_cons_self ..)
      · rcases ih h' with h'' | h''
        · exact Or.inl (List.mem_cons_of_mem _ h'')
        · exact Or.inr h''
    · rw [show mapSet ((a1, a2) :: rest) k v = (a1, v) :: rest from by
        simp [mapSet, ha]] at h
      rcases List.mem_cons.mp h with rfl | h'
      · exact Or.inr ⟨ha, rfl⟩
      · exact Or.inl (List.mem_cons_of_mem _ h')

theorem mapGet_eq_some {κ α : Type} [BEq κ] (m : List (κ × α)) (k : κ) (v : α)
    (h : mapGet m k = some v) : ∃ e ∈ m, (e.1 == k) = true ∧ e.2 = v := by
  unfold mapGet at h
  cases hf : m.find? (fun e => e.1 == k) with
  | none => rw [hf] at h; cases h
  | some e =>
    rw [hf] at h
    have hv : e.2 = v := by simpa using h
    have hp : (e.1 == k) = true := by
      have := List.find?_some hf
      simpa using this
    exact ⟨e, List.mem_of_find?_eq_some hf, hp, hv⟩

theorem applyBoardLine_board {P : Type} (s v : String) (bd : ParsedBoard P) :
    (applyBoardLine s v bd).board = bd.board := by
  unfold applyBoardLine
  cases h : (s == "name")
  · rw [if_neg (by simp [h])]
  · rw [if_pos (by simp [h])]

theorem applyBoardLine_platform {P : Type} (s v : String) (bd : ParsedBoard P) :
    (applyBoardLine s v bd).platform = bd.platform := by
  unfold applyBoardLine
  cases h : (s == "name")
  · rw [if_neg (by simp [h])]
  · rw [if_pos (by simp [h])]

theorem foldl_applyBoardLine_board {P : Type} (svs : List (String × String)) :
    ∀ bd : ParsedBoard P,
      (svs.foldl (fun bd sv => applyBoardLine sv.1 sv.2 bd) bd).board = bd.board ∧
      (svs.foldl (fun bd sv => applyBoardLine sv.1 sv.2 bd) bd).platform = bd.platform := by
  induction svs with
  | nil => intro bd; exact ⟨rfl, rfl⟩
  | cons sv svs ih =>
    intro bd
    rw [List.foldl_cons]
    refine ⟨?_, ?_⟩
    · rw [(ih (applyBoardLine sv.1 sv.2 bd)).1, applyBoardLine_board]
    · rw [(ih (applyBoardLine sv.1 sv.2 bd)).2, applyBoardLine_platform]

theorem buildBoardSpec_board {P : Type} (plat : P) (p : String)
    (svs : List (String × String)) :
    (buildBoardSpec plat p svs).board = p ∧ (buildBoardSpec plat p svs).platform = plat :=
  foldl_applyBoardLine_board svs (newBoard plat p)

theorem processLine_skip {P : Type} (plat : P) (st : List (String × ParsedBoard P))
    (line : String) (h : isSkippedLine line = true) :
    processDescriptorLine plat st line = st := by
  unfold processDescriptorLine
  rw [if_pos h]

theorem processLine_not_skipped_none {P : Type} (plat : P)
    (st : List (String × ParsedBoard P)) (line : String)
    (h1 : isSkippedLine line = false) (h2 : execBoardLineRegex line.toList = none) :
    processDescriptorLine plat st line = st := by
  unfold processDescriptorLine
  rw [if_neg (by simp [h1]), h2]

theorem processLine_not_skipped_match {P : Type} (plat : P)
    (st : List (String × ParsedBoard P)) (line : String) (g1 g2 g3 : String)
    (h1 : isSkippedLine line = false)
    (h2 : execBoardLineRegex line.toList = some (g1, g2, g3)) :
    processDescriptorLine plat st line =
      mapSet st g1 (applyBoardLine g2 g3
        (match mapGet st g1 with
         | some bd => bd
         | none => newBoard plat g1)) := by
  unfold processDescriptorLine
  rw [if_neg (by simp [h1]), h2]

theorem foldl_processLine_mapGet {P : Type} (plat : P) (lines : List String) :
    ∀ p : String,
      mapGet (lines.foldl (processDescriptorLine plat) []) p =
        boardFromTriples plat p (triplesFor p (lineTriples lines)) := by
  induction lines using List.reverseRecOn with
  | nil => intro p; rfl
  | append_singleton ls l ih =>
    intro p
    rw [List.foldl_append, List.foldl_cons, List.foldl_nil]
    have hlt : lineTriples (ls ++ [l]) = lineTriples ls ++ lineTriples [l] := by
      simp [lineTriples]
    rw [hlt]
    cases hskip : isSkippedLine l
    case true =>
      rw [processLine_skip plat _ l hskip]
      have h0 : lineTriples [l] = [] := by simp [lineTriples, hskip]
      rw [h0, List.append_nil]
      exact ih p
    case false =>
      cases hex : execBoardLineRegex l.toList with
      | none =>
        rw [processLine_not_skipped_none plat _ l hskip hex]
        have hexd : execBoardLineRegex l.data = none := hex
        have h0 : lineTriples [l] = [] := by simp [lineTriples, hskip, hexd]
        rw [h0, List.append_nil]
        exact ih p
      | some t =>
        obtain ⟨g1, g2, g3⟩ := t
        rw [processLine_not_skipped_match plat _ l g1 g2 g3 hskip hex]
        have hexd : execBoardLineRegex l.data = some (g1, g2, g3) := hex
        have h0 : lineTriples [l] = [(g1, g2, g3)] := by simp [lineTriples, hskip, hexd]
        rw [h0]
        cases hgp : g1 == p
        case false =>
          have hne : ¬g1 = p := by
            intro he
            rw [he] at hgp
            simp at hgp
          have ht : triplesFor p (lineTriples ls ++ [(g1, g2, g3)]) =
              triplesFor p (lineTriples ls) := by
            simp [triplesFor, hne]
          have hpg : (p == g1) = false := by
            cases hc : p == g1
            · rfl
            · exfalso
              have hpe : p = g1 := eq_of_beq hc
              rw [hpe] at hgp
              simp at hgp
          rw [ht, mapGet_mapSet_ne _ _ _ _ hpg]
          exact ih p
        case true =>
          have hg1p : g1 = p := eq_of_beq hgp
          subst hg1p
          have ht : triplesFor g1 (lineTriples ls ++ [(g1, g2, g3)]) =
              triplesFor g1 (lineTriples ls) ++ [(g2, g3)] := by
            simp [triplesFor]
          rw [ht, mapGet_mapSet_self]
          rcases hts : triplesFor g1 (lineTriples ls) with _ | ⟨sv, svs⟩
          · have ihk : mapGet (ls.foldl (processDescriptorLine plat) []) g1 = none := by
              rw [ih g1, hts]
              rfl
            rw [ihk]
            rfl
          · have ihk : mapGet (ls.foldl (processDescriptorLine plat) []) g1 =
                some (buildBoardSpec plat g1 (sv :: svs)) := by
              rw [ih g1, hts]
              rfl
            rw [ihk]
            show some (applyBoardLine g2 g3 (buildBoardSpec plat g1 (sv :: svs))) =
              boardFromTriples plat g1 ((sv :: svs) ++ [(g2, g3)])
            have hb : buildBoardSpec plat g1 ((sv :: svs) ++ [(g2, g3)]) =
                applyBoardLine g2 g3 (buildBoardSpec plat g1 (sv :: svs)) := by
              simp [buildBoardSpec, List.foldl_append]
            rw [← hb]
            rfl

/-- C3, counterexample: the line `menu.cpu=Processor` matches the board
line regex with the dot-free key `menu`, yet the parsed registry is empty
— the parser returns early on `menu.`-prefixed lines, so no board keyed
`menu` with parameter `cpu` exists, contrary to the claim. -/
theorem parseBoardDescriptorFile_menu_line_counterexample :
    execBoardLineRegex ("menu.cpu=Processor".toList) =
      some ("menu", "cpu", "Processor") ∧
    parseBoardDescriptorFile "menu.cpu=Processor" (0 : Nat) = [] ∧
    mapGet (parseBoardDescriptorFile "menu.cpu=Processor" (0 : Nat)) "menu" = none := by
  decide

/-- C3 as amended: lines starting with `#` **or `menu.`** contribute
nothing; every other line matching `prefix.suffix=value` contributes to
the board keyed by the dot-free first group — a `name` suffix sets the
trimmed display name, any other suffix stores the untrimmed value under
the suffix in the board's parameters map.  The registry maps each key to
exactly the board built, in order, from its matched (suffix, value)
pairs. -/
theorem parseBoardDescriptorFile_line_contributions {P : Type} (text : String)
    (plat : P) (p : String) :
    mapGet (parseBoardDescriptorFile text plat) p =
      boardFromTriples plat p (triplesFor p (lineTriples (splitDescriptorLines text))) :=
  foldl_processLine_mapGet plat (splitDescriptorLines text) p

/-- C4, counterexample: a descriptor consisting of the menu declaration
`menu.cpu=Processor` parses to the empty registry — the named
configuration menu is not recorded anywhere. -/
theorem parseBoardDescriptorFile_records_no_menus :
    jsStartsWith "menu.cpu=Processor" "menu." = true ∧
    parseBoardDescriptorFile "menu.cpu=Processor" (0 : Nat) = [] := by
  decide

/-- C4 as amended: `menu.`-prefixed lines are ignored by this parser —
processing such a line leaves the registry unchanged, so the parsed board
registry records no configuration menus. -/
theorem menu_lines_contribute_nothing {P : Type} (plat : P)
    (st : List (String × ParsedBoard P)) (line : String)
    (h : jsStartsWith line "menu." = true) :
    processDescriptorLine plat st line = st := by
  apply processLine_skip
  unfold isSkippedLine
  rw [h]
  simp

/-- Witness for `menu_lines_contribute_nothing` at a concrete line. -/
theorem menu_lines_contribute_nothing_witness :
    processDescriptorLine (0 : Nat) [] "menu.cpu=Processor" = [] :=
  menu_lines_contribute_nothing 0 [] "menu.cpu=Processor" (by decide)

theorem board_of_getOrNew {P : Type} (plat : P) (st : List (String × ParsedBoard P))
    (hst : ∀ e ∈ st, e.2.board = e.1 ∧ e.2.platform = plat) (g1 : String) :
    (match mapGet st g1 with
     | some bd => bd
     | none => newBoard plat g1).board = g1 ∧
    (match mapGet st g1 with
     | some bd => bd
     | none => newBoard plat g1).platform = plat := by
  cases hm : mapGet st g1 with
  | none => exact ⟨rfl, rfl⟩
  | some bd =>
    obtain ⟨e, he, hbeq, hval⟩ := mapGet_eq_some st g1 bd hm
    have h1 := hst e he
    have hek : e.1 = g1 := eq_of_beq hbeq
    subst hval
    exact ⟨h1.1.trans hek, h1.2⟩

theorem parseBoardDescriptor_entries_aux {P : Type} (plat : P) (lines : List String) :
    ∀ st : List (String × ParsedBoard P),
      (∀ e ∈ st, e.2.board = e.1 ∧ e.2.platform = plat) →
      ∀ e ∈ lines.foldl (processDescriptorLine plat) st,
        e.2.board = e.1 ∧ e.2.platform = plat := by
  induction lines with
  | nil => intro st hst e he; exact hst e he
  | cons l ls ih =>
    intro st hst e he
    rw [List.foldl_cons] at he
    refine ih (processDescriptorLine plat st l) ?_ e he
    intro e' he'
    cases hskip : isSkippedLine l
    case true =>
      rw [processLine_skip plat st l hskip] at he'
      exact hst e' he'
    case false =>
      cases hex : execBoardLineRegex l.toList with
      | none =>
        rw [processLine_not_skipped_none plat st l hskip hex] at he'
        exact hst e' he'
      | some t =>
        obtain ⟨g1, g2, g3⟩ := t
        rw [processLine_not_skipped_match plat st l g1 g2 g3 hskip hex] at he'
        rcases mem_mapSet _ _ _ _ he' with hmem | ⟨hbeq, hval⟩
        · exact hst e' hmem
        · have hb := board_of_getOrNew plat st hst g1
          have he1 : e'.1 = g1 := eq_of_beq hbeq
          rw [hval, applyBoardLine_board, applyBoardLine_platform, he1]
          exact hb

/-- C9: every key of the registry returned by `parseBoardDescriptorFile`
equals the `board` field of the board it maps to, and every board's
`platform` field is the platform passed in. -/
theorem parseBoardDescriptorFile_key_invariant {P : Type} (text : String) (plat : P) :
    ∀ e ∈ parseBoardDescriptorFile text plat,
      e.2.board = e.1 ∧ e.2.platform = plat :=
  parseBoardDescriptor_entries_aux plat (splitDescriptorLines text) []
    (fun _ he => nomatch he)

/-- Witness for `parseBoardDescriptorFile_key_invariant` at a concrete
descriptor. -/
theorem parseBoardDescriptorFile_key_invariant_witness :
    ((("uno", ⟨"uno", some "Arduino Uno", [], 0⟩) : String × ParsedBoard Nat).2.board
        = "uno") ∧
    ((("uno", ⟨"uno", some "Arduino Uno", [], 0⟩) : String × ParsedBoard Nat).2.platform
        = 0) :=
  parseBoardDescriptorFile_key_invariant "uno.name=Arduino Uno" 0
    ("uno", ⟨"uno", some "Arduino Uno", [], 0⟩) (by decide)

theorem libraryStep_eq {C : Type} (rootPath : List String) (target : Option String)
    (needInc : Bool) (acc : List (ExampleEntry C) × List (ExampleEntry C))
    (lib : LibraryListing C) :
    libraryStep rootPath target needInc acc lib =
      (acc.1 ++ compatContribution rootPath target lib,
       acc.2 ++ incompatContribution rootPath target needInc lib) := by
  unfold libraryStep compatContribution incompatContribution isCompatLib isIncompatLib
  cases hp : lib.hasPropertiesFile <;>
    by_cases hl : 0 < lib.exampleChildren.length <;>
      cases hs : isSupported lib.architectures target <;>
        cases hn : needInc <;>
          simp [hp, hl, hs, hn]

theorem foldl_libraryStep {C : Type} (rootPath : List String) (target : Option String)
    (needInc : Bool) (libs : List (LibraryListing C)) :
    ∀ acc : List (ExampleEntry C) × List (ExampleEntry C),
      libs.foldl (libraryStep rootPath target needInc) acc =
        (acc.1 ++ libs.flatMap (compatContribution rootPath target),
         acc.2 ++ libs.flatMap (incompatContribution rootPath target needInc)) := by
  induction libs with
  | nil => intro acc; simp
  | cons lib libs ih =>
    intro acc
    rw [List.foldl_cons, libraryStep_eq, ih]
    simp [List.flatMap_cons]

theorem mem_library_parseExamplesFromLibrary {C : Type} (rootPath : List String)
    (target : Option String) (needInc : Bool) (libs : List (LibraryListing C))
    (n : String) (p : List String) (ch : List C) :
    ExampleEntry.library n p ch ∈ parseExamplesFromLibrary rootPath target needInc libs ↔
      ExampleEntry.library n p ch ∈ libs.flatMap (compatContribution rootPath target) := by
  have hres : parseExamplesFromLibrary rootPath target needInc libs =
      (if needInc &&
          !(libs.flatMap (incompatContribution rootPath target needInc)).isEmpty then
        libs.flatMap (compatContribution rootPath target) ++
          [.incompatibleGroup (libs.flatMap (incompatContribution rootPath target needInc))]
      else libs.flatMap (compatContribution rootPath target)) := by
    unfold parseExamplesFromLibrary
    simp only [foldl_libraryStep, List.nil_append]
  rw [hres]
  by_cases hcond : (needInc &&
      !(libs.flatMap (incompatContribution rootPath target needInc)).isEmpty) = true
  · rw [if_pos hcond]
    simp
  · rw [if_neg hcond]

/-- C6, counterexample: a library whose `library.properties` has an
**empty** `architectures` field (falsy in JavaScript) is not listed as
compatible even with no current board selected, although it has an
architectures field, non-empty examples and a properties file. -/
theorem isSupported_empty_architectures_counterexample :
    libEmptyArchW.architectures ≠ none ∧
    libEmptyArchW.hasPropertiesFile = true ∧
    libEmptyArchW.exampleChildren ≠ [] ∧
    parseExamplesFromLibrary [] none false [libEmptyArchW] = [] :=
  ⟨by decide, rfl, by decide, rfl⟩

/-- C6 as amended: a library with a properties file and a non-empty parsed
example tree is listed as compatible iff `isSupported` holds of its
architectures field, which unfolds to: the field is present and non-empty,
and either no board is selected or the field contains the target
architecture or `"*"` as a substring; a library without an architectures
field is never listed as compatible. -/
theorem parseExamplesFromLibrary_compatibility {C : Type} (rootPath : List String)
    (target : Option String) (needInc : Bool) (libs : List (LibraryListing C))
    (lib : LibraryListing C) (hmem : lib ∈ libs)
    (hnames : (libs.map (fun l => l.name)).Nodup)
    (hprops : lib.hasPropertiesFile = true)
    (hchildren : lib.exampleChildren ≠ []) :
    (mkLibEntry rootPath lib ∈ parseExamplesFromLibrary rootPath target needInc libs ↔
      isSupported lib.architectures target = true) ∧
    (isSupported lib.architectures target = true ↔
      ∃ a, lib.architectures = some a ∧ a ≠ "" ∧
        (target = none ∨ ∃ t, target = some t ∧
          (jsStringIncludes a t = true ∨ jsStringIncludes a "*" = true))) ∧
    (lib.architectures = none →
      mkLibEntry rootPath lib ∉ parseExamplesFromLibrary rootPath target needInc libs) := by
  have hlen : 0 < lib.exampleChildren.length := List.length_pos.mpr hchildren
  have hpart1 : mkLibEntry rootPath lib ∈
      parseExamplesFromLibrary rootPath target needInc libs ↔
      isSupported lib.architectures target = true := by
    unfold mkLibEntry
    rw [mem_library_parseExamplesFromLibrary, List.mem_flatMap]
    constructor
    · rintro ⟨lib', hlib', hx⟩
      unfold compatContribution at hx
      by_cases hc : isCompatLib target lib' = true
      · rw [if_pos hc] at hx
        have hname : lib.name = lib'.name := by
          have hx' := List.mem_singleton.mp hx
          unfold mkLibEntry at hx'
          exact (ExampleEntry.library.injEq _ _ _ _ _ _).mp hx' |>.1
        have heq : lib = lib' := List.inj_on_of_nodup_map hnames hmem hlib' hname
        subst heq
        unfold isCompatLib at hc
        simp only [Bool.and_eq_true] at hc
        exact hc.2
      · rw [if_neg hc] at hx
        cases hx
    · intro hsup
      refine ⟨lib, hmem, ?_⟩
      have hc : isCompatLib target lib = true := by
        simp [isCompatLib, hprops, hlen, hsup]
      simp [compatContribution, hc, mkLibEntry]
  refine ⟨hpart1, ?_, ?_⟩
  · cases harch : lib.architectures with
    | none => simp [isSupported, harch]
    | some a =>
      by_cases ha : a = ""
      · simp [isSupported, harch, ha]
      · cases target with
        | none => simp [isSupported, harch, ha]
        | some t =>
          simp only [isSupported, harch]
          rw [if_neg (by simp [ha])]
          simp [ha]
  · intro harch hmem'
    have h1 := hpart1.mp hmem'
    rw [harch] at h1
    simp [isSupported] at h1

/-- Witness for `parseExamplesFromLibrary_compatibility` at a concrete
library list. -/
theorem parseExamplesFromLibrary_compatibility_witness :
    mkLibEntry ["libs"] libServoW ∈
      parseExamplesFromLibrary ["libs"] (some "avr") false [libServoW] :=
  ((parseExamplesFromLibrary_compatibility ["libs"] (some "avr") false [libServoW]
      libServoW (by decide) (by decide) (by decide) (by decide)).1).mpr (by decide)

theorem find?_append_left {α : Type} (p : α → Bool) (l₁ l₂ : List α) (y : α)
    (h : l₁.find? p = some y) : (l₁ ++ l₂).find? p = some y := by
  induction l₁ with
  | nil => simp at h
  | cons x rest ih =>
    cases hx : p x
    · rw [List.find?_cons_of_neg _ (by simp [hx])] at h
      rw [List.cons_append, List.find?_cons_of_neg _ (by simp [hx])]
      exact ih h
    · rw [List.find?_cons_of_pos _ (by simp [hx])] at h
      rw [List.cons_append, List.find?_cons_of_pos _ (by simp [hx])]
      exact h

theorem mapGet_find?_entry {κ α : Type} [BEq κ] (m : List (κ × α)) (k : κ) (v : α)
    (h : mapGet m k = some v) :
    ∃ e, m.find? (fun e => e.1 == k) = some e ∧ e.2 = v := by
  unfold mapGet at h
  cases hf : m.find? (fun e => e.1 == k) with
  | none => rw [hf] at h; cases h
  | some e =>
    rw [hf] at h
    exact ⟨e, rfl, by simpa using h⟩

theorem mapGet_cons_split {κ α : Type} [BEq κ] (a : κ) (b : α) (rest : List (κ × α))
    (k : κ) (h : mapGet ((a, b) :: rest) k = none) :
    (a == k) = false ∧ mapGet rest k = none := by
  cases ha : a == k
  · refine ⟨rfl, ?_⟩
    unfold mapGet at h ⊢
    rw [List.find?_cons_of_neg _ (by simp [ha])] at h
    exact h
  · exfalso
    unfold mapGet at h
    rw [List.find?_cons_of_pos _ (by simp [ha])] at h
    simp at h

theorem mapSet_of_mapGet_none {κ α : Type} [BEq κ] (m : List (κ × α)) (k : κ) (v : α)
    (h : mapGet m k = none) : mapSet m k v = m ++ [(k, v)] := by
  induction m with
  | nil => rfl
  | cons e rest ih =>
    obtain ⟨a, b⟩ := e
    obtain ⟨ha, hrest⟩ := mapGet_cons_split a b rest k h
    rw [show mapSet ((a, b) :: rest) k v = (a, b) :: mapSet rest k v from by
      simp [mapSet, ha]]
    rw [ih hrest, List.cons_append]

theorem mapGet_append_none {κ α : Type} [BEq κ] (m l : List (κ × α)) (k : κ)
    (hm : mapGet m k = none) : mapGet (m ++ l) k = mapGet l k := by
  induction m with
  | nil => rfl
  | cons e rest ih =>
    obtain ⟨a, b⟩ := e
    obtain ⟨ha, hrest⟩ := mapGet_cons_split a b rest k hm
    rw [List.cons_append]
    unfold mapGet
    rw [List.find?_cons_of_neg _ (by simp [ha])]
    exact ih hrest

theorem mapGet_updateFirst_value_none {κ α : Type} [BEq κ] (p : κ × α → Bool)
    (g : α → α) (m : List (κ × α)) (k : κ) (hm : mapGet m k = none) :
    mapGet (updateFirst p (fun e => (e.1, g e.2)) m) k = none := by
  induction m with
  | nil => rfl
  | cons e rest ih =>
    obtain ⟨a, b⟩ := e
    obtain ⟨ha, hrest⟩ := mapGet_cons_split a b rest k hm
    cases hp : p (a, b)
    · rw [show updateFirst p (fun e => (e.1, g e.2)) ((a, b) :: rest) =
          (a, b) :: updateFirst p (fun e => (e.1, g e.2)) rest from by
        simp [updateFirst, hp]]
      unfold mapGet
      rw [List.find?_cons_of_neg _ (by simp [ha])]
      exact ih hrest
    · rw [show updateFirst p (fun e => (e.1, g e.2)) ((a, b) :: rest) =
          (a, g b) :: rest from by simp [updateFirst, hp]]
      unfold mapGet
      rw [List.find?_cons_of_neg _ (by simp [ha])]
      unfold mapGet at hrest
      exact hrest

theorem mem_updateFirst {α : Type} (p : α → Bool) (f : α → α) (l : List α) (e : α)
    (h : e ∈ updateFirst p f l) :
    e ∈ l ∨ ∃ y, l.find? p = some y ∧ e = f y := by
  induction l with
  | nil => cases h
  | cons x rest ih =>
    cases hx : p x
    · rw [show updateFirst p f (x :: rest) = x :: updateFirst p f rest from by
        simp [updateFirst, hx]] at h
      rcases List.mem_cons.mp h with rfl | h'
      · exact Or.inl (List.mem_cons_self ..)
      · rcases ih h' with h'' | ⟨y, hy, he⟩
        · exact Or.inl (List.mem_cons_of_mem _ h'')
        · exact Or.inr ⟨y, by rw [List.find?_cons_of_neg _ (by simp [hx])]; exact hy, he⟩
    · rw [show updateFirst p f (x :: rest) = f x :: rest from by
        simp [updateFirst, hx]] at h
      rcases List.mem_cons.mp h with rfl | h'
      · exact Or.inr ⟨x, by rw [List.find?_cons_of_pos _ (by simp [hx])], rfl⟩
      · exact Or.inl (List.mem_cons_of_mem _ h')

theorem exampleStep_of_none (fsListing : List String → List (String × Bool))
    (st : List (List String × ExampleNodeData)) (cur : List String)
    (h : mapGet st cur.dropLast = none) : exampleStep fsListing st cur = st := by
  unfold exampleStep
  rw [h]

theorem exampleStep_of_leaf (fsListing : List String → List (String × Bool))
    (st : List (List String × ExampleNodeData)) (cur : List String)
    (parent : ExampleNodeData) (h : mapGet st cur.dropLast = some parent)
    (hl : parent.isLeaf = true) : exampleStep fsListing st cur = st := by
  unfold exampleStep
  simp [h, hl]

theorem exampleStep_of_active (fsListing : List String → List (String × Bool))
    (st : List (List String × ExampleNodeData)) (cur : List String)
    (parent : ExampleNodeData) (h : mapGet st cur.dropLast = some parent)
    (hl : parent.isLeaf = false) :
    exampleStep fsListing st cur =
      updateFirst (fun e => e.1 == cur.dropLast)
        (fun e => (e.1, { e.2 with children := e.2.children ++ [cur] }))
        (mapSet st cur (mkExampleNode fsListing cur)) := by
  unfold exampleStep
  simp [h, hl]

theorem exampleStep_invariant (fsListing : List String → List (String × Bool))
    (rs : List (List String)) :
    ∀ st : List (List String × ExampleNodeData),
      (∀ e ∈ st, e.2.isLeaf = true → e.2.children = []) →
      (∀ r ∈ rs, mapGet st r = none) →
      rs.Nodup →
      ∀ e ∈ rs.foldl (exampleStep fsListing) st,
        e.2.isLeaf = true → e.2.children = [] := by
  induction rs with
  | nil => intro st hinv _ _ e he; exact hinv e he
  | cons r rs ih =>
    intro st hinv hdisj hnd e he
    rw [List.foldl_cons] at he
    obtain ⟨hr, hrs⟩ : r ∉ rs ∧ rs.Nodup := ⟨(List.nodup_cons.mp hnd).1,
      (List.nodup_cons.mp hnd).2⟩
    have hrnone : mapGet st r = none := hdisj r (List.mem_cons_self ..)
    -- The invariant and the key-freshness are both preserved by one step.
    have hstep : (∀ e' ∈ exampleStep fsListing st r,
          e'.2.isLeaf = true → e'.2.children = []) ∧
        (∀ r' ∈ rs, mapGet (exampleStep fsListing st r) r' = none) := by
      cases hm : mapGet st r.dropLast with
      | none =>
        rw [exampleStep_of_none fsListing st r hm]
        exact ⟨hinv, fun r' hr' => hdisj r' (List.mem_cons_of_mem _ hr')⟩
      | some parent =>
        cases hleaf : parent.isLeaf
        · rw [exampleStep_of_active fsListing st r parent hm hleaf]
          have hset : mapSet st r (mkExampleNode fsListing r) =
              st ++ [(r, mkExampleNode fsListing r)] :=
            mapSet_of_mapGet_none st r _ hrnone
          rw [hset]
          obtain ⟨y, hy, hyval⟩ := mapGet_find?_entry st r.dropLast parent hm
          constructor
          · intro e' he'
            rcases mem_updateFirst _ _ _ _ he' with h' | ⟨y', hy', rfl⟩
            · rcases List.mem_append.mp h' with h'' | h''
              · exact hinv e' h''
              · have he'' : e' = (r, mkExampleNode fsListing r) := by
                  simpa using h''
                rw [he'']
                intro _
                rfl
            · have hy'' : y' = y := by
                rw [find?_append_left _ st _ y hy] at hy'
                exact (Option.some.injEq _ _).mp hy'.symm
              subst hy''
              intro hleaf'
              exfalso
              have hfalse : y'.2.isLeaf = false := by rw [hyval]; exact hleaf
              have htrue : y'.2.isLeaf = true := hleaf'
              rw [hfalse] at htrue
              cases htrue
          · intro r' hr'
            have hrne : (r == r') = false := by
              rw [beq_eq_false_iff_ne]
              intro he'
              rw [he'] at hr
              exact hr hr'
            have h1 : mapGet (st ++ [(r, mkExampleNode fsListing r)]) r' = none := by
              rw [mapGet_append_none st _ r' (hdisj r' (List.mem_cons_of_mem _ hr'))]
              unfold mapGet
              rw [List.find?_cons_of_neg _ (by simp [hrne])]
              rfl
            exact mapGet_updateFirst_value_none (fun e => e.1 == r.dropLast)
              (fun v => { v with children := v.children ++ [r] }) _ r' h1
        · rw [exampleStep_of_leaf fsListing st r parent hm hleaf]
          exact ⟨hinv, fun r' hr' => hdisj r' (List.mem_cons_of_mem _ hr')⟩
    exact ih (exampleStep fsListing st r) hstep.1 hstep.2 hrs e he

/-- C10: in the structure built by `parseExamples`, every node whose
`isLeaf` flag is true has an empty children list — once a folder is marked
as a leaf, no subfolder is ever attached to it (the loop requires
`!parentExample.isLeaf` before pushing a child, and new nodes start with
no children). -/
theorem parseExamples_leaf_no_children (fsListing : List String → List (String × Bool))
    (folders : List (List String)) (hnd : folders.Nodup) :
    ∀ e ∈ parseExamples fsListing folders,
      e.2.isLeaf = true → e.2.children = [] := by
  match folders with
  | [] => exact fun e he => nomatch he
  | f0 :: rest =>
    obtain ⟨hf0, hrest⟩ := List.nodup_cons.mp hnd
    apply exampleStep_invariant fsListing rest
      [(f0, { name := "", path := f0, isLeaf := false, children := [] })]
    · intro e he
      have he' : e = (f0, { name := "", path := f0, isLeaf := false, children := [] }) := by
        simpa using he
      rw [he']
      intro h
      cases h
    · intro r hr
      have hne : (f0 == r) = false := by
        rw [beq_eq_false_iff_ne]
        intro he
        rw [he] at hf0
        exact hf0 hr
      unfold mapGet
      rw [List.find?_cons_of_neg _ (by simp [hne])]
      rfl
    · exact hrest

/-- Witness for `parseExamples_leaf_no_children` at a concrete folder
tree containing one leaf example folder. -/
theorem parseExamples_leaf_no_children_witness :
    ((["ex", "Blink"], ⟨"Blink", ["ex", "Blink"], true, []⟩) :
        List String × ExampleNodeData).2.children = [] :=
  parseExamples_leaf_no_children
    (fun p => if p == ["ex", "Blink"] then [("Blink.ino", true)] else [])
    [["ex"], ["ex", "Blink"]] (by decide)
    (["ex", "Blink"], ⟨"Blink", ["ex", "Blink"], true, []⟩) (by decide) (by decide)

end VsArduino
